import Mathlib

/-!
# Verification of the public-market-equivalent (PME) engine

Shallow embedding, in Lean 4, of the repository's core computation modules:

* `common/utils/bisect_helpers.py`   -> namespace `BisectHelpers`
* `common/utils/transaction_utils.py`-> namespace `TransactionUtils`
* `common/utils/xirr_utils.py`       -> namespace `XirrsUtils`
* `pme/utils/pme_utils.py`           -> namespace `PmeUtils`

Modelling conventions:

* Python floats are modelled as `ℚ` (exact arithmetic); the XIRR objective
  function, which is evaluated at real rates, is modelled over `ℝ`.
* Python's `None` is modelled as `Option.none`; functions that can raise are
  modelled in `Except PyError`.
* `datetime.datetime` values produced by `strptime("%Y-%m-%d")` are modelled
  as proleptic-Gregorian day ordinals (`ℤ`): subtraction of two such
  datetimes yields exactly the ordinal difference in whole days
  (`.days`), and comparison of such datetimes is exactly ordinal
  comparison.  In the transaction-aggregation model, where the distinction
  between a date *string* and its parsed calendar value matters, date
  strings are kept as character sequences (`List Char`) and parsed by an
  explicit `strptime` model.
* `x / 0 = 0` is Lean's convention for `ℚ` division.  Wherever CPython
  would instead raise `ZeroDivisionError`, the development tracks the
  offending division sites by explicit reachability predicates
  (see the `divZero` definitions in `PmeUtils`).
-/

namespace BisectHelpers

/-- Modelled from the spec: `bisect.bisect_left` is the Python standard
library (not part of this repository; `bisect_helpers.py` line 1 imports it
and its docstring points at the Python documentation).  Its documented
behaviour on a list sorted ascending is to return the leftmost insertion
point for `x`, i.e. the length of the maximal initial run of elements
strictly below `x`; that run-length characterisation is taken as the
definition here.  All theorems below assume the sortedness precondition
that the spec (§3, invariant) imposes on every caller. -/
def bisect_left {β : Type} [LinearOrder β] : List β → β → ℕ
  | [], _ => 0
  | y :: ys, x => if y < x then bisect_left ys x + 1 else 0

/-- Modelled from the spec: `bisect.bisect_right` (Python standard library),
the rightmost insertion point for `x` in a sorted list: the length of the
maximal initial run of elements `≤ x`. -/
def bisect_right {β : Type} [LinearOrder β] : List β → β → ℕ
  | [], _ => 0
  | y :: ys, x => if y ≤ x then bisect_right ys x + 1 else 0

/-- `bisect_helpers.py` lines 10-16 (`index`): leftmost position whose value
equals `x`, else the `None` sentinel.  Source: `i = bisect_left(a, x);
if i != len(a) and a[i] == x: return i; else: return None`
(`a.get? i = some v` is exactly `i != len(a)` with `v = a[i]`). -/
def index {β : Type} [LinearOrder β] (a : List β) (x : β) : Option ℕ :=
  match a.get? (bisect_left a x) with
  | some v => if v = x then some (bisect_left a x) else none
  | none => none

/-- `bisect_helpers.py` lines 18-24 (`find_lt`): rightmost value less than
`x`.  Source: `i = bisect_left(a, x); if i: return a[i - 1]; else: None`. -/
def find_lt {β : Type} [LinearOrder β] (a : List β) (x : β) : Option β :=
  if bisect_left a x = 0 then none else a.get? (bisect_left a x - 1)

/-- `bisect_helpers.py` lines 26-32 (`find_le`): rightmost value less than
or equal to `x`.  Source: `i = bisect_right(a, x); if i: return a[i - 1]`. -/
def find_le {β : Type} [LinearOrder β] (a : List β) (x : β) : Option β :=
  if bisect_right a x = 0 then none else a.get? (bisect_right a x - 1)

/-- `bisect_helpers.py` lines 34-40 (`find_gt`): leftmost value greater than
`x`.  Source: `i = bisect_right(a, x); if i != len(a): return a[i]`. -/
def find_gt {β : Type} [LinearOrder β] (a : List β) (x : β) : Option β :=
  a.get? (bisect_right a x)

/-- `bisect_helpers.py` lines 42-48 (`find_ge`): leftmost value greater than
or equal to `x`.  Source: `i = bisect_left(a, x); if i != len(a): a[i]`. -/
def find_ge {β : Type} [LinearOrder β] (a : List β) (x : β) : Option β :=
  a.get? (bisect_left a x)

/-- `bisect_helpers.py` lines 60-68 (`find_eq_by_key`): leftmost record whose
key equals `x`, via `bisect_left` over the extracted key list.  Source:
`specific_value_list = [item[key] for item in a];
i = bisect_left(specific_value_list, x);
if i != len(a) and a[i][key] == x: return a[i]; else: return None`. -/
def find_eq_by_key {α β : Type} [LinearOrder β] (a : List α) (x : β)
    (key : α → β) : Option α :=
  match a.get? (bisect_left (a.map key) x) with
  | some item => if key item = x then some item else none
  | none => none

/-- `bisect_helpers.py` lines 80-88 (`find_le_by_key`): rightmost record with
key ≤ `x`.  Source: `i = bisect_right([item[key] for item in a], x);
if i: return a[i - 1]; else: return None`. -/
def find_le_by_key {α β : Type} [LinearOrder β] (a : List α) (x : β)
    (key : α → β) : Option α :=
  if bisect_right (a.map key) x = 0 then none
  else a.get? (bisect_right (a.map key) x - 1)

/-- `bisect_helpers.py` lines 90-98 (`find_gt_by_key`): leftmost record with
key > `x`.  Source: `i = bisect_right([item[key] for item in a], x);
if i != len(a): return a[i]; else: return None`. -/
def find_gt_by_key {α β : Type} [LinearOrder β] (a : List α) (x : β)
    (key : α → β) : Option α :=
  a.get? (bisect_right (a.map key) x)

end BisectHelpers

namespace XirrsUtils

/-- A dated cash flow as consumed by `calculate_xirr` (`xirr_utils.py`
lines 58-66): a `{date, value}` record.  The date is a day ordinal (see the
file header); `calculate_xirr` accepts either a `"%Y-%m-%d"` string or a
`datetime` there and normalises to `datetime`, whose ordering and
subtraction are exactly those of ordinals.  The `value` is a number; the
inputs this repository feeds to `calculate_xirr` (aggregated sums and
balances) are never `None`, and a `None` value would in any case be
replaced by `0.0` via `transaction["value"] or 0.0` (line 95). -/
structure CashFlow where
  date : ℤ
  value : ℚ
deriving DecidableEq

/-- Result of `calculate_xirr`.  `undefined` models the Python `None`
sentinel; `fixedRate r` a literal numeric return (the `-1` total-loss
sentinel) produced without running the solver; `solved r` a value obtained
from the bracketed root-finder `scipy.optimize.brenth`. -/
inductive XirrOutcome where
  | undefined : XirrOutcome
  | fixedRate (r : ℚ) : XirrOutcome
  | solved (r : ℝ) : XirrOutcome

/-- `xirr_utils.py` lines 79-97: sort the cash flows by date and tabulate
`{value, time_diff_days}` with day offsets relative to the earliest flow
(`time_diff = final_date - initial_date; time_diff.days`). -/
def transaction_array (transactions : List CashFlow) : List (ℤ × ℚ) :=
  let sorted_txns := List.insertionSort (fun a b => a.date ≤ b.date) transactions
  match sorted_txns with
  | [] => []
  | first :: _ => sorted_txns.map fun t => (t.date - first.date, t.value)

/-- `xirr_utils.py` line 100: the XIRR objective
`xirr = lambda r: reduce(lambda x, y: x + y.value/(1.0+r)**(y.time_diff_days/365), arr, 0.0)`,
a left fold from `0.0`; the 365-day year matches the source comment. -/
noncomputable def xirrObjective (arr : List (ℤ × ℚ)) (r : ℝ) : ℝ :=
  arr.foldl (fun acc y => acc + (y.2 : ℝ) / (1 + r) ^ ((y.1 : ℝ) / 365)) 0

open Classical in
/-- `xirr_utils.py` lines 58-116 (`calculate_xirr`), with the external
`scipy.optimize.brenth` solver abstracted as the function argument
`brenth`.  Branch structure of the source: sort by date; if all values
`>= 0` return `None`; elif all values `<= 0` return `-1`; otherwise build
the day-offset array and evaluate the objective at `-0.999` and `100`:
if `(f(-.999) > 0 and f(100) < 0) or (f(-.999) < 0 and f(100) > 0)` return
`brenth(f, -.999, 100)`, else return `None`. -/
noncomputable def calculate_xirr (brenth : (ℝ → ℝ) → ℝ → ℝ → ℝ)
    (transactions : List CashFlow) : XirrOutcome :=
  let sorted_txns := List.insertionSort (fun a b => a.date ≤ b.date) transactions
  if sorted_txns.all fun t => decide (0 ≤ t.value) then .undefined
  else if sorted_txns.all fun t => decide (t.value ≤ 0) then .fixedRate (-1)
  else
    let f := xirrObjective (transaction_array transactions)
    if (f (-0.999) > 0 ∧ f 100 < 0) ∨ (f (-0.999) < 0 ∧ f 100 > 0) then
      .solved (brenth f (-0.999) 100)
    else .undefined

end XirrsUtils

namespace TransactionUtils

/-- A raw transaction as consumed by `aggregate_transactions_by_date`
(`transaction_utils.py` lines 9-18): `{date, value, transactionTypeId}`.
The date type `δ` is `String` where the textual/parsed distinction matters
(`transaction_utils.py` itself) and a day ordinal (`ℤ`) where the PME layer
feeds records whose dates it subsequently parses with the same format.
`value` is nullable (`None` treated as `0.0` when summing, line 34).
`transactionTypeId` is total here, so the `"transactionTypeId" not in
transactions[0]` invalid-state guard (line 21) never fires in this model. -/
structure RawTxn (δ : Type) where
  date : δ
  value : Option ℚ
  transactionTypeId : ℕ
deriving DecidableEq

/-- An aggregated `{date, value}` record (`transaction_utils.py` line 32). -/
structure AggTxn (δ : Type) where
  date : δ
  value : ℚ
deriving DecidableEq

/-- Modelled from the spec: the transaction-type identifiers
`TransactionTypeEnum.Contribution` / `.Distribution` come from
`common/model_enums.py`, which is not under `src/`; per the spec (§1, §6)
they are opaque comparable identifiers, so only their distinctness (and
Python truthiness, hence nonzero) matters.  Contribution identifier. -/
def contributionTypeId : ℕ := 1

/-- Modelled from the spec: distribution identifier (see
`contributionTypeId`). -/
def distributionTypeId : ℕ := 2

/-- `transaction_utils.py` lines 9-37 (`aggregate_transactions_by_date`).
Source steps: optional filter on `transactionTypeId` (the `if
transaction_type_id:` truthiness test is modelled by the `Option`, the
repository's type identifiers being nonzero); collect the set of distinct
dates (`set(...)` iterates in arbitrary order, modelled by `dedup`; the
order is immaterial because the result is sorted); group the transactions
of each date and sum their values with `None` counted as `0.0`
(`group[0]["date"]` is the grouping date itself; the `else None` placeholder
for an empty group at line 35 is unreachable since every grouping date
comes from some transaction); sort the summed records by
`datetime.strptime(x["date"], "%Y-%m-%d")`, i.e. by the parsed date `parse`,
not by the raw date value. -/
def aggregate_transactions_by_date {δ κ : Type} [DecidableEq δ]
    [LinearOrder κ] (parse : δ → κ) (transactions : List (RawTxn δ))
    (transaction_type_id : Option ℕ) : List (AggTxn δ) :=
  let txns : List (RawTxn δ) := match transaction_type_id with
    | some tid => transactions.filter fun t => t.transactionTypeId = tid
    | none => transactions
  let dates : List δ := (txns.map fun t => t.date).dedup
  let summed := dates.map fun d =>
    AggTxn.mk d (((txns.filter fun t => t.date = d).map fun t =>
      t.value.getD 0).sum)
  List.insertionSort (fun a b => parse a.date ≤ parse b.date) summed

/-- A date string, modelled as its character sequence (a Python `str` is a
sequence of characters). -/
abbrev DateStr := List Char

/-- Splitting a character sequence on the `-` separator, as `"-"`-separated
field extraction does in date parsing. -/
def splitDash : List Char → List (List Char)
  | [] => [[]]
  | c :: cs =>
    if c = '-' then [] :: splitDash cs
    else
      match splitDash cs with
      | [] => [[c]]
      | g :: gs => (c :: g) :: gs

/-- Reading a nonempty all-digit character sequence as a decimal numeral. -/
def digitsToNat (cs : List Char) : Option ℕ :=
  if cs ≠ [] ∧ cs.all (fun c => c.isDigit) then
    some (cs.foldl (fun acc c => acc * 10 + (c.toNat - '0'.toNat)) 0)
  else none

/-- Modelled from the spec: `datetime.datetime.strptime(s, "%Y-%m-%d")`
(Python standard library).  Splits on `-`, reads three decimal numerals and
validates the month and day ranges (day-in-month and leap-year validation
elided).  The result is encoded as `y*10000 + m*100 + d`, whose numeric
order is exactly calendar (year, month, day lexicographic) order on the
validated ranges.  Malformed strings parse to `none` (Python raises
`ValueError`). -/
def parseDate (s : DateStr) : Option ℕ :=
  match splitDash s with
  | [ys, ms, ds] =>
    match digitsToNat ys, digitsToNat ms, digitsToNat ds with
    | some y, some m, some d =>
      if 1 ≤ m ∧ m ≤ 12 ∧ 1 ≤ d ∧ d ≤ 31 then some (y * 10000 + m * 100 + d)
      else none
    | _, _, _ => none
  | _ => none

/-- Total version of `parseDate` used as a sort key (the default is never
reached under the well-formedness hypothesis of the theorems below). -/
def parseDateD (s : DateStr) : ℕ := (parseDate s).getD 0

end TransactionUtils

namespace PmeUtils

open BisectHelpers TransactionUtils

/-- Python exception kinds raised by the modelled code paths. -/
inductive PyError where
  | typeError : PyError
  | invalidState : PyError
deriving DecidableEq

/-- A `{date, balance}` record: used for the theoretical-investment series
built by the Long-Nickels and mPME loops (`pme_utils.py` lines 61-64 and
151-154), for investment returns (only their `date` and `balance` fields
are read, lines 166-171), and for the `{date, value}` index points of
`__get_benchmark_returns` (there the `value` key plays the balance role). -/
structure BalanceItem where
  date : ℤ
  balance : ℚ
deriving DecidableEq

/-- A benchmark-return record, shaped as emitted by
`__get_benchmark_returns` (`pme_utils.py` lines 362-372) and mutated in
place by the three PME algorithms.  The `xirr` field is kept abstractly as
an `Option ℚ`: no modelled code path ever writes it (the only writers,
lines 104-105 and 220-221, sit after calls that raise `TypeError`,
see `calculate_long_nickels_PME`). -/
structure BenchmarkReturn where
  date : ℤ
  balance : ℚ
  timeWeightedReturn : ℚ
  cumulativeTimeWeightedReturn : ℚ
  kaplanSchoarMultiple : Option ℚ
  xirr : Option ℚ
  dpi : Option ℚ
  rvpi : Option ℚ
  tvpi : Option ℚ
deriving DecidableEq

/-- `pme_utils.py` lines 45-48 (and 122-125, 247-250): contributions
aggregated by date.  The list comprehension re-parses each aggregated
record's date with `strptime`; with dates modelled as ordinals the parse is
the identity, so the comprehension returns the aggregated list itself. -/
def contributionsByDate (investment_transactions : List (RawTxn ℤ)) :
    List (AggTxn ℤ) :=
  aggregate_transactions_by_date id investment_transactions
    (some contributionTypeId)

/-- `pme_utils.py` lines 51-54 (and 128-131, 242-245): distributions
aggregated by date (see `contributionsByDate`). -/
def distributionsByDate (investment_transactions : List (RawTxn ℤ)) :
    List (AggTxn ℤ) :=
  aggregate_transactions_by_date id investment_transactions
    (some distributionTypeId)

/-- Value of an optional same-date aggregated record, `0` when absent
(the `if ... is not None` additions in the PME loops). -/
def optValue (a : Option (AggTxn ℤ)) : ℚ :=
  match a with
  | some c => c.value
  | none => 0

/-- Result of the Long-Nickels per-date loop: the theoretical-investment
series, the updated benchmark returns, and a flag recording whether a
DPI/RVPI division (`pme_utils.py` lines 90-91) was ever executed with a
zero denominator. -/
structure LNResult where
  series : List BalanceItem
  outputs : List BenchmarkReturn
  tvpiDivZero : Bool
deriving DecidableEq

/-- `pme_utils.py` lines 56-98: the Long-Nickels loop.  Per benchmark
return: `current_value = 0.0`, replaced by
`prev_value * (1 + timeWeightedReturn)` when `prev_value` is truthy
(`if prev_value:` — `None` and `0.0` are both falsy); the same-date
aggregated contribution and distribution are looked up with
`find_eq_by_key(..., "date")` and added to `current_value` and to the
cumulative totals; the date's series item records `current_value` as the
balance; if `calculate_tvpi` and `cumulative_contributions` is truthy,
`dpi = -1*cumD/cumC`, `rvpi = current_value/cumC`, `tvpi = dpi + rvpi`,
elif `calculate_tvpi` all three are `0.0`; finally
`prev_value = current_value`. -/
def long_nickels_loop (contribs distribs : List (AggTxn ℤ))
    (calculate_tvpi : Bool) (prev_value : Option ℚ)
    (cumulative_contributions cumulative_distributions : ℚ) :
    List BenchmarkReturn → LNResult
  | [] => ⟨[], [], false⟩
  | br :: rest =>
    let base : ℚ := match prev_value with
      | some p => if p = 0 then 0 else p * (1 + br.timeWeightedReturn)
      | none => 0
    let contribution := find_eq_by_key contribs br.date fun a => a.date
    let distribution := find_eq_by_key distribs br.date fun a => a.date
    let current_value := base + optValue contribution + optValue distribution
    let cumC := cumulative_contributions + optValue contribution
    let cumD := cumulative_distributions + optValue distribution
    let br' := if calculate_tvpi ∧ cumC ≠ 0 then
        { br with dpi := some (-1 * cumD / cumC),
                  rvpi := some (current_value / cumC),
                  tvpi := some (-1 * cumD / cumC + current_value / cumC) }
      else if calculate_tvpi then
        { br with dpi := some 0, rvpi := some 0, tvpi := some 0 }
      else br
    let hit : Bool := decide ((calculate_tvpi ∧ cumC ≠ 0) ∧ cumC = 0)
    let r := long_nickels_loop contribs distribs calculate_tvpi
      (some current_value) cumC cumD rest
    ⟨⟨br.date, current_value⟩ :: r.series, br' :: r.outputs,
      hit || r.tvpiDivZero⟩

/-- Number of positional parameters of
`XirrsUtils.read_xirrs_timeseries(self, returns, transactions)`
(`xirr_utils.py` line 18), not counting `self`. -/
def read_xirrs_timeseries_paramCount : ℕ := 2

/-- Number of positional arguments passed at `pme_utils.py` line 102:
`read_xirrs_timeseries(None, theoretical_investment_series,
investment_transactions)`. -/
def long_nickels_xirr_callArgCount : ℕ := 3

/-- Number of positional arguments passed at `pme_utils.py` line 218:
`read_xirrs_timeseries(None, theoretical_balances,
contributions_aggregated_by_date + weighted_distributions)`. -/
def mPME_xirr_callArgCount : ℕ := 3

/-- CPython call protocol: a call with a positional argument count other
than the method's positional parameter count raises `TypeError`. -/
def pyCallRaisesTypeError (paramCount argCount : ℕ) : Bool :=
  decide (argCount ≠ paramCount)

/-- `pme_utils.py` lines 26-107 (`calculate_long_nickels_PME`): aggregate
contributions and distributions by date, run the per-date loop, and, when
`calculate_xirr` is set, call `read_xirrs_timeseries` (line 102).  That
call passes three positional arguments to a method declared with two
besides `self`, so it raises `TypeError` unconditionally; the model
returns `Except.error .typeError` for that path. -/
def calculate_long_nickels_PME (benchmark_returns : List BenchmarkReturn)
    (investment_transactions : List (RawTxn ℤ))
    (calculate_xirr calculate_tvpi : Bool) :
    Except PyError (List BenchmarkReturn) :=
  let contribs := contributionsByDate investment_transactions
  let distribs := distributionsByDate investment_transactions
  let r := long_nickels_loop contribs distribs calculate_tvpi
    none 0 0 benchmark_returns
  if calculate_xirr then
    Except.error PyError.typeError
  else
    Except.ok r.outputs

/-- Result of the mPME per-date loop: the theoretical balances, the
weighted distributions, the updated benchmark returns, a flag recording
whether the distribution-weight division (`pme_utils.py` line 171) was
ever executed with a zero denominator, and the analogous flag for the
DPI/RVPI divisions (lines 199-200). -/
structure MPMEResult where
  theoreticalBalances : List BalanceItem
  weightedDistributions : List (AggTxn ℤ)
  outputs : List BenchmarkReturn
  weightDivZero : Bool
  tvpiDivZero : Bool
deriving DecidableEq

/-- `pme_utils.py` lines 144-209: the mPME loop.  Per benchmark return:
look up the same-date aggregated contribution and distribution
(`find_eq_by_key`) and the most recent investment return at or before the
date (`find_le_by_key`); `distribution_weight = 0.0` unless both a
distribution and a most-recent return exist, in which case
`-dist.value / (-dist.value + mrr.balance)`;
`prev_theoretical_balance` defaults to `0.0` and
`prev_benchmark_balance` to the current `balance` when still `None`;
`adjusted_balance = prevTh * (balance/prevBm) + contribution`;
`theoretical_balance = (1 - weight) * adjusted_balance`;
`weighted_distribution = -1 * weight * adjusted_balance`; cumulative
contributions/weighted distributions and the optional DPI/RVPI/TVPI
update follow the Long-Nickels pattern; finally the previous theoretical
and benchmark balances are set for the next date. -/
def mPME_loop (contribs distribs : List (AggTxn ℤ))
    (sorted_investment_returns : List BalanceItem) (calculate_tvpi : Bool)
    (prev_theoretical_balance prev_benchmark_balance : Option ℚ)
    (cumulative_contributions cumulative_weighted_distributions : ℚ) :
    List BenchmarkReturn → MPMEResult
  | [] => ⟨[], [], [], false, false⟩
  | br :: rest =>
    let contribution := find_eq_by_key contribs br.date fun a => a.date
    let distribution := find_eq_by_key distribs br.date fun a => a.date
    let most_recent_return := find_le_by_key sorted_investment_returns
      br.date fun a => a.date
    let distribution_weight : ℚ := match distribution, most_recent_return with
      | some dtr, some mrr => -dtr.value / (-dtr.value + mrr.balance)
      | _, _ => 0
    let weightHit : Bool := match distribution, most_recent_return with
      | some dtr, some mrr => decide (-dtr.value + mrr.balance = 0)
      | _, _ => false
    let prevTh : ℚ := match prev_theoretical_balance with
      | some p => p
      | none => 0
    let prevBm : ℚ := match prev_benchmark_balance with
      | some p => p
      | none => br.balance
    let adjusted_balance := prevTh * (br.balance / prevBm)
      + optValue contribution
    let theoretical_balance := (1 - distribution_weight) * adjusted_balance
    let weighted_distribution := -1 * distribution_weight * adjusted_balance
    let cumC := cumulative_contributions + optValue contribution
    let cumWD := cumulative_weighted_distributions + weighted_distribution
    let br' := if calculate_tvpi ∧ cumC ≠ 0 then
        { br with dpi := some (-1 * cumWD / cumC),
                  rvpi := some (theoretical_balance / cumC),
                  tvpi := some (-1 * cumWD / cumC + theoretical_balance / cumC) }
      else if calculate_tvpi then
        { br with dpi := some 0, rvpi := some 0, tvpi := some 0 }
      else br
    let tvpiHit : Bool := decide ((calculate_tvpi ∧ cumC ≠ 0) ∧ cumC = 0)
    let r := mPME_loop contribs distribs sorted_investment_returns
      calculate_tvpi (some theoretical_balance) (some br.balance) cumC
      cumWD rest
    ⟨⟨br.date, theoretical_balance⟩ :: r.theoreticalBalances,
      ⟨br.date, weighted_distribution⟩ :: r.weightedDistributions,
      br' :: r.outputs,
      weightHit || r.weightDivZero,
      tvpiHit || r.tvpiDivZero⟩

/-- `pme_utils.py` lines 109-223 (`calculate_mPME`): aggregate
contributions and distributions, sort the investment returns by (parsed)
date, run the per-date loop, and, when `calculate_xirr` is set, call
`read_xirrs_timeseries` (line 218) — again with three positional
arguments against two declared parameters, hence `TypeError`. -/
def calculate_mPME (benchmark_returns : List BenchmarkReturn)
    (investment_returns : List BalanceItem)
    (investment_transactions : List (RawTxn ℤ))
    (calculate_xirr calculate_tvpi : Bool) :
    Except PyError (List BenchmarkReturn) :=
  let contribs := contributionsByDate investment_transactions
  let distribs := distributionsByDate investment_transactions
  let sorted_investment_returns := List.insertionSort
    (fun a b => a.date ≤ b.date) investment_returns
  let r := mPME_loop contribs distribs sorted_investment_returns
    calculate_tvpi none none 0 0 benchmark_returns
  if calculate_xirr then
    Except.error PyError.typeError
  else
    Except.ok r.outputs

/-- Result of the Kaplan-Schoar per-date loop: the updated benchmark
returns, a flag recording whether the multiple division
(`pme_utils.py` line 279) was ever executed with a zero denominator, and
the analogous flag for the DPI/RVPI divisions (lines 285-286). -/
structure KSResult where
  outputs : List BenchmarkReturn
  multipleDivZero : Bool
  tvpiDivZero : Bool
deriving DecidableEq

/-- `pme_utils.py` lines 252-295: the Kaplan-Schoar loop.  Per benchmark
return: `total_discounted_distribution_value = 0.0`, replaced by
`prev * (1 + timeWeightedReturn)` when the previous total `is not None`,
then incremented by the same-date aggregated distribution; likewise for
contributions (which also feed `cumulative_contributions`);
`kaplanSchoarMultiple = tdd / (-1 * tdc)` when `tdc != 0`, else `0`;
optional DPI/RVPI/TVPI as in the other loops; both totals become the
`prev` values of the next date. -/
def kaplan_schoar_loop (contribs distribs : List (AggTxn ℤ))
    (calculate_tvpi : Bool) (cumulative_contributions : ℚ)
    (prev_discounted_distribution_value
      prev_discounted_contribution_value : Option ℚ) :
    List BenchmarkReturn → KSResult
  | [] => ⟨[], false, false⟩
  | br :: rest =>
    let distribution := find_eq_by_key distribs br.date fun a => a.date
    let contribution := find_eq_by_key contribs br.date fun a => a.date
    let tdd : ℚ := (match prev_discounted_distribution_value with
      | some p => p * (1 + br.timeWeightedReturn)
      | none => 0) + optValue distribution
    let tdc : ℚ := (match prev_discounted_contribution_value with
      | some p => p * (1 + br.timeWeightedReturn)
      | none => 0) + optValue contribution
    let cumC := cumulative_contributions + optValue contribution
    let multiple : ℚ := if tdc ≠ 0 then tdd / (-1 * tdc) else 0
    let multipleHit : Bool := decide (tdc ≠ 0 ∧ -1 * tdc = 0)
    let br1 := { br with kaplanSchoarMultiple := some multiple }
    let br' := if calculate_tvpi ∧ cumC ≠ 0 then
        { br1 with dpi := some (-1 * tdd / cumC),
                   rvpi := some ((tdc + tdd) / cumC),
                   tvpi := some (-1 * tdd / cumC + (tdc + tdd) / cumC) }
      else if calculate_tvpi then
        { br1 with dpi := some 0, rvpi := some 0, tvpi := some 0 }
      else br1
    let tvpiHit : Bool := decide ((calculate_tvpi ∧ cumC ≠ 0) ∧ cumC = 0)
    let r := kaplan_schoar_loop contribs distribs calculate_tvpi cumC
      (some tdd) (some tdc) rest
    ⟨br' :: r.outputs, multipleHit || r.multipleDivZero,
      tvpiHit || r.tvpiDivZero⟩

/-- `pme_utils.py` lines 225-297 (`calculate_kaplan_schoar_PME`):
aggregate by date, then run the Kaplan-Schoar loop from `None` previous
totals and zero cumulative contributions. -/
def calculate_kaplan_schoar_PME (benchmark_returns : List BenchmarkReturn)
    (investment_transactions : List (RawTxn ℤ)) (calculate_tvpi : Bool) :
    List BenchmarkReturn :=
  (kaplan_schoar_loop (contributionsByDate investment_transactions)
    (distributionsByDate investment_transactions) calculate_tvpi 0
    none none benchmark_returns).outputs

/-- `utils.py` lines 4-15 (`get_unique_values`), as used at `pme_utils.py`
line 331 with key `"date"`: concatenate the date columns and keep the
distinct values.  Python's `set` iterates in arbitrary order; `dedup`
picks one such order, which is immaterial because the caller re-sorts. -/
def get_unique_dates (returns_dates transaction_dates : List ℤ) : List ℤ :=
  (returns_dates ++ transaction_dates).dedup

/-- A benchmark value `{date, value}` (`pme_utils.py` lines 318-326;
date-only precision, modelled as ordinals). -/
structure BenchmarkValue where
  date : ℤ
  value : ℚ
deriving DecidableEq

/-- `pme_utils.py` lines 348-372, step 3 of `__get_benchmark_returns`:
walk the date-sorted index values computing
`return_ = (value - prev_value)/prev_value` when `prev_value` is truthy
(else `0.0`), `cumulative_return *= (return_ + 1.0)` seeded at `1.0`, and
emit the full benchmark-return record with all PME fields `None`. -/
def twr_loop (prev_value : Option ℚ) (cumulative_return : ℚ) :
    List (AggTxn ℤ) → List BenchmarkReturn
  | [] => []
  | x :: rest =>
    let ret : ℚ := match prev_value with
      | some p => if p = 0 then 0 else (x.value - p) / p
      | none => 0
    let cum := cumulative_return * (ret + 1)
    ⟨x.date, x.value, ret, cum, none, none, none, none, none⟩
      :: twr_loop (some x.value) cum rest

/-- `pme_utils.py` lines 334-344: the `{date, value}` index point for one
required date — the most recent sorted benchmark value at or before the
date, else the earliest one after it (`index_value.update(benchmark_value)`
copies the value; the date is then overwritten with the required date).
The `⟨d, 0⟩` default of the double-`none` case is unreachable for a
nonempty benchmark list (in Python that case would raise a `TypeError`
from `dict.update(None)`). -/
def index_value_for (bvs : List BenchmarkValue) (d : ℤ) : AggTxn ℤ :=
  match BisectHelpers.find_le_by_key bvs d (fun b => b.date) with
  | some bv => ⟨d, bv.value⟩
  | none =>
    match BisectHelpers.find_gt_by_key bvs d (fun b => b.date) with
    | some bv => ⟨d, bv.value⟩
    | none => ⟨d, 0⟩

/-- `pme_utils.py` lines 299-374 (`__get_benchmark_returns`): raise
`InvalidState` on an empty benchmark-value list; sort the benchmark values
by date; build the `{date, value}` index point of every distinct date of
the returns/transactions (`index_value_for`); sort the index points by
date and run the TWR loop. -/
def get_benchmark_returns (benchmark_values : List BenchmarkValue)
    (returns_dates transaction_dates : List ℤ) :
    Except PyError (List BenchmarkReturn) :=
  if benchmark_values = [] then
    Except.error PyError.invalidState
  else
    let bvs := List.insertionSort (fun a b => a.date ≤ b.date)
      benchmark_values
    let dates := get_unique_dates returns_dates transaction_dates
    let index_values : List (AggTxn ℤ) := dates.map (index_value_for bvs)
    let sorted_ivs := List.insertionSort (fun a b => a.date ≤ b.date)
      index_values
    Except.ok (twr_loop none 1 sorted_ivs)

instance : Inhabited (AggTxn ℤ) := ⟨⟨0, 0⟩⟩

instance : Inhabited BalanceItem := ⟨⟨0, 0⟩⟩

instance : Inhabited BenchmarkReturn :=
  ⟨⟨0, 0, 0, 1, none, none, none, none, none⟩⟩

/-- The previous balance visible at step `i` of a per-date loop whose
recorded series is `s`: the initial value `p0` at the first date, and the
balance recorded for date `i` at date `i + 1`. -/
def prevSeriesBalance (s : List BalanceItem) (p0 : ℚ) : ℕ → ℚ
  | 0 => p0
  | i + 1 => (s.getD i default).balance

/-- The previous benchmark balance visible at step `i` of the mPME loop:
the initial value `p0` at the first date (the source resolves a `None`
previous benchmark balance to the current date's own balance), and the
benchmark balance of date `i` at date `i + 1`. -/
def prevBenchmarkBalance (brs : List BenchmarkReturn) (p0 : ℚ) : ℕ → ℚ
  | 0 => p0
  | i + 1 => (brs.getD i default).balance

/-- `pme_utils.py` lines 168-171: the mPME distribution weight at a date,
`-dist.value / (-dist.value + mrr.balance)` when both a same-date
aggregated distribution and a most recent investment return at or before
the date exist, else `0.0`. -/
def mPmeWeight (distribs : List (AggTxn ℤ))
    (sorted_investment_returns : List BalanceItem) (d : ℤ) : ℚ :=
  match BisectHelpers.find_eq_by_key distribs d (fun a => a.date),
      BisectHelpers.find_le_by_key sorted_investment_returns d
        (fun a => a.date) with
  | some dtr, some mrr => -dtr.value / (-dtr.value + mrr.balance)
  | _, _ => 0

/-- Claim-side form of the Kaplan-Schoar running totals (spec §4.5): a
discounted total that starts at `start` before the first date and, at each
date, equals the previous total compounded by `(1 + timeWeightedReturn)`
plus that date's same-date aggregated cash-flow value `v`. -/
def specDiscountedTotal (start : ℚ) (v twr : ℕ → ℚ) : ℕ → ℚ
  | 0 => start * (1 + twr 0) + v 0
  | i + 1 => specDiscountedTotal start v twr i * (1 + twr (i + 1)) + v (i + 1)

end PmeUtils

/-! ## Lemmas and claim theorems -/

namespace BisectHelpers

/-- Every element strictly before the `bisect_left` insertion point is
strictly below the query. -/
theorem lt_of_get?_lt_bisect_left {β : Type} [LinearOrder β] :
    ∀ {a : List β} {x : β} {j : ℕ} {v : β},
      j < bisect_left a x → a.get? j = some v → v < x := by
  intro a
  induction a with
  | nil => intro x j v hj _; simp [bisect_left] at hj
  | cons y ys ih =>
    intro x j v hj hv
    by_cases hy : y < x
    · simp only [bisect_left, if_pos hy] at hj
      cases j with
      | zero =>
        rw [List.get?_cons_zero] at hv
        cases hv
        exact hy
      | succ j' =>
        rw [List.get?_cons_succ] at hv
        exact ih (Nat.lt_of_succ_lt_succ hj) hv
    · simp only [bisect_left, if_neg hy] at hj
      exact absurd hj (Nat.not_lt_zero j)

/-- The element sitting at the `bisect_left` insertion point (if any) is not
strictly below the query. -/
theorem not_lt_of_get?_bisect_left {β : Type} [LinearOrder β] :
    ∀ {a : List β} {x v : β},
      a.get? (bisect_left a x) = some v → ¬ v < x := by
  intro a
  induction a with
  | nil => intro x v hv; simp at hv
  | cons y ys ih =>
    intro x v hv
    by_cases hy : y < x
    · simp only [bisect_left, if_pos hy] at hv
      rw [List.get?_cons_succ] at hv
      exact ih hv
    · simp only [bisect_left, if_neg hy] at hv
      rw [List.get?_cons_zero] at hv
      cases hv
      exact hy

/-- Every element strictly before the `bisect_right` insertion point is at
most the query. -/
theorem le_of_get?_lt_bisect_right {β : Type} [LinearOrder β] :
    ∀ {a : List β} {x : β} {j : ℕ} {v : β},
      j < bisect_right a x → a.get? j = some v → v ≤ x := by
  intro a
  induction a with
  | nil => intro x j v hj _; simp [bisect_right] at hj
  | cons y ys ih =>
    intro x j v hj hv
    by_cases hy : y ≤ x
    · simp only [bisect_right, if_pos hy] at hj
      cases j with
      | zero =>
        rw [List.get?_cons_zero] at hv
        cases hv
        exact hy
      | succ j' =>
        rw [List.get?_cons_succ] at hv
        exact ih (Nat.lt_of_succ_lt_succ hj) hv
    · simp only [bisect_right, if_neg hy] at hj
      exact absurd hj (Nat.not_lt_zero j)

/-- The element sitting at the `bisect_right` insertion point (if any) is
strictly above the query. -/
theorem lt_of_get?_bisect_right {β : Type} [LinearOrder β] :
    ∀ {a : List β} {x v : β},
      a.get? (bisect_right a x) = some v → x < v := by
  intro a
  induction a with
  | nil => intro x v hv; simp at hv
  | cons y ys ih =>
    intro x v hv
    by_cases hy : y ≤ x
    · simp only [bisect_right, if_pos hy] at hv
      rw [List.get?_cons_succ] at hv
      exact ih hv
    · simp only [bisect_right, if_neg hy] at hv
      rw [List.get?_cons_zero] at hv
      cases hv
      exact lt_of_not_le hy

/-- If every element is `≤ x`, `bisect_right` runs to the end of the list. -/
theorem bisect_right_eq_length {β : Type} [LinearOrder β] :
    ∀ {a : List β} {x : β}, (∀ y ∈ a, y ≤ x) →
      bisect_right a x = a.length := by
  intro a
  induction a with
  | nil => intro x _; rfl
  | cons y ys ih =>
    intro x h
    have hy : y ≤ x := h y (List.mem_cons_self y ys)
    simp [bisect_right, if_pos hy, ih fun z hz => h z (List.mem_cons_of_mem y hz)]

/-- If every element is `< x`, `bisect_left` runs to the end of the list. -/
theorem bisect_left_eq_length {β : Type} [LinearOrder β] :
    ∀ {a : List β} {x : β}, (∀ y ∈ a, y < x) →
      bisect_left a x = a.length := by
  intro a
  induction a with
  | nil => intro x _; rfl
  | cons y ys ih =>
    intro x h
    have hy : y < x := h y (List.mem_cons_self y ys)
    simp [bisect_left, if_pos hy, ih fun z hz => h z (List.mem_cons_of_mem y hz)]

/-- `index` succeeds exactly when the element at the insertion point is the
query itself. -/
theorem index_isSome_iff {β : Type} [LinearOrder β] (a : List β) (x : β) :
    (index a x).isSome ↔ a.get? (bisect_left a x) = some x := by
  unfold index
  cases h : a.get? (bisect_left a x) with
  | none => simp
  | some v =>
    by_cases hvx : v = x
    · subst hvx; simp
    · simp [hvx]

/-- On a sorted list, `index` succeeds on every member. -/
theorem index_isSome_of_mem {β : Type} [LinearOrder β] :
    ∀ {a : List β} {x : β}, List.Sorted (· ≤ ·) a → x ∈ a →
      (index a x).isSome := by
  intro a
  induction a with
  | nil => intro x _ hx; simp at hx
  | cons y ys ih =>
    intro x hs hx
    by_cases hy : y < x
    · have hxy : x ≠ y := ne_of_gt hy
      have hx' : x ∈ ys := by
        rcases List.mem_cons.mp hx with h | h
        · exact absurd h hxy
        · exact h
      have h2 := ih (List.Sorted.of_cons hs) hx'
      rw [index_isSome_iff] at h2 ⊢
      simp only [bisect_left, if_pos hy, List.get?_cons_succ]
      exact h2
    · have hxy : x = y := by
        rcases List.mem_cons.mp hx with h | h
        · exact h
        · have h1 : y ≤ x := (List.sorted_cons.mp hs).1 x h
          exact le_antisymm (not_lt.mp hy) h1
      rw [index_isSome_iff]
      simp [bisect_left, if_neg hy, hxy]

/-- **C10.** For every ascending-sorted sequence `a` and query `x`:
whenever `find_lt a x` and `find_gt a x` both return an element,
`find_lt a x < x < find_gt a x`; the exact search `index` returns a result
iff `x` is a member of `a`, the element at the returned position equals `x`
and the position is the leftmost such; and every search primitive returns
the `None` sentinel (never raises) when no qualifying element exists. -/
theorem sorted_search_contracts {β : Type} [LinearOrder β] (a : List β)
    (x : β) (hs : List.Sorted (· ≤ ·) a) :
    (∀ u v, find_lt a x = some u → find_gt a x = some v → u < x ∧ x < v)
    ∧ ((index a x).isSome ↔ x ∈ a)
    ∧ (∀ i, index a x = some i →
        a.get? i = some x ∧ ∀ j, j < i → a.get? j ≠ some x)
    ∧ ((∀ y ∈ a, ¬ y < x) → find_lt a x = none)
    ∧ ((∀ y ∈ a, ¬ y ≤ x) → find_le a x = none)
    ∧ ((∀ y ∈ a, ¬ x < y) → find_gt a x = none)
    ∧ ((∀ y ∈ a, ¬ x ≤ y) → find_ge a x = none)
    ∧ (x ∉ a → index a x = none) := by
  refine ⟨?_, ⟨?_, ?_⟩, ?_, ?_, ?_, ?_, ?_, ?_⟩
  · intro u v hu hv
    constructor
    · unfold find_lt at hu
      by_cases h0 : bisect_left a x = 0
      · simp [h0] at hu
      · rw [if_neg h0] at hu
        exact lt_of_get?_lt_bisect_left (by omega) hu
    · exact lt_of_get?_bisect_right hv
  · intro hsome
    rw [index_isSome_iff] at hsome
    exact List.get?_mem hsome
  · intro hmem
    exact index_isSome_of_mem hs hmem
  · intro i hi
    unfold index at hi
    cases h : a.get? (bisect_left a x) with
    | none => rw [h] at hi; cases hi
    | some v =>
      rw [h] at hi
      by_cases hvx : v = x
      · subst hvx
        simp at hi
        subst hi
        exact ⟨h, fun j hj hjx =>
          absurd (lt_of_get?_lt_bisect_left hj hjx) (lt_irrefl v)⟩
      · simp [hvx] at hi
  · intro h
    unfold find_lt
    have h0 : bisect_left a x = 0 := by
      cases a with
      | nil => rfl
      | cons y ys => simp [bisect_left, h y (List.mem_cons_self y ys)]
    simp [h0]
  · intro h
    unfold find_le
    have h0 : bisect_right a x = 0 := by
      cases a with
      | nil => rfl
      | cons y ys => simp [bisect_right, h y (List.mem_cons_self y ys)]
    simp [h0]
  · intro h
    unfold find_gt
    rw [bisect_right_eq_length fun y hy => not_lt.mp (h y hy)]
    exact List.get?_eq_none.mpr le_rfl
  · intro h
    unfold find_ge
    rw [bisect_left_eq_length fun y hy => not_le.mp (h y hy)]
    exact List.get?_eq_none.mpr le_rfl
  · intro hx
    unfold index
    cases h : a.get? (bisect_left a x) with
    | none => rfl
    | some v =>
      by_cases hvx : v = x
      · subst hvx
        exact absurd (List.get?_mem h) hx
      · simp [hvx]

/-- Concrete instantiation of `sorted_search_contracts` at `a = [1, 3, 5]`,
`x = 3`, discharging the sortedness hypothesis by evaluation. -/
theorem sorted_search_contracts_witness :
    List.Sorted (· ≤ ·) ([1, 3, 5] : List ℤ)
    ∧ ((index ([1, 3, 5] : List ℤ) 3).isSome ↔ (3 : ℤ) ∈ [1, 3, 5]) :=
  ⟨by decide, (sorted_search_contracts [1, 3, 5] 3 (by decide)).2.1⟩

end BisectHelpers

namespace XirrsUtils

/-- Membership transfer: the sorted copy used inside `calculate_xirr` has
exactly the members of the input list. -/
theorem mem_sortByDate_iff (transactions : List CashFlow) (t : CashFlow) :
    t ∈ List.insertionSort (fun a b => a.date ≤ b.date) transactions
      ↔ t ∈ transactions :=
  (List.perm_insertionSort (fun a b => a.date ≤ b.date) transactions).mem_iff

/-- **C2 (counterexample).** The claim asserts that every cash-flow list in
which every value is `≤ 0` yields exactly `-1`; on the all-zero singleton
list both sign conditions hold, the all-`≥ 0` check fires first, and the
result is the `undefined` sentinel, which is not `-1`. -/
theorem calculate_xirr_all_zero_counterexample :
    calculate_xirr (fun _ _ _ => 0) [⟨0, 0⟩] = XirrOutcome.undefined
    ∧ XirrOutcome.undefined ≠ XirrOutcome.fixedRate (-1) := by
  constructor
  · rfl
  · exact fun h => XirrOutcome.noConfusion h

/-- **C2 (amended).** `calculate_xirr` never raises, and without invoking
the root-finder: if every value is `≥ 0` it returns the `undefined`
sentinel (a value distinct from any numeric rate, in particular from a
computed rate of `0`); if every value is `≤ 0` *and at least one value is
strictly negative* it returns exactly `-1`.  (On the overlap — empty or
all-zero lists — the all-`≥ 0` branch takes precedence and the result is
`undefined`.) -/
theorem calculate_xirr_sign_sentinels (brenth : (ℝ → ℝ) → ℝ → ℝ → ℝ)
    (transactions : List CashFlow) :
    ((∀ t ∈ transactions, 0 ≤ t.value) →
        calculate_xirr brenth transactions = XirrOutcome.undefined)
    ∧ ((∀ t ∈ transactions, t.value ≤ 0) → (∃ t ∈ transactions, t.value < 0) →
        calculate_xirr brenth transactions = XirrOutcome.fixedRate (-1)) := by
  constructor
  · intro hall
    have hcond : (List.insertionSort (fun a b : CashFlow => a.date ≤ b.date)
        transactions).all (fun t => decide (0 ≤ t.value)) = true := by
      rw [List.all_eq_true]
      intro t ht
      exact decide_eq_true (hall t ((mem_sortByDate_iff transactions t).mp ht))
    simp [calculate_xirr, hcond]
  · intro hall hex
    obtain ⟨t0, ht0, ht0v⟩ := hex
    have hcond1 : (List.insertionSort (fun a b : CashFlow => a.date ≤ b.date)
        transactions).all (fun t => decide (0 ≤ t.value)) = false := by
      cases hb : (List.insertionSort (fun a b : CashFlow => a.date ≤ b.date)
          transactions).all (fun t => decide (0 ≤ t.value)) with
      | false => rfl
      | true =>
        rw [List.all_eq_true] at hb
        have := of_decide_eq_true
          (hb t0 ((mem_sortByDate_iff transactions t0).mpr ht0))
        exact absurd this (not_le.mpr ht0v)
    have hcond2 : (List.insertionSort (fun a b : CashFlow => a.date ≤ b.date)
        transactions).all (fun t => decide (t.value ≤ 0)) = true := by
      rw [List.all_eq_true]
      intro t ht
      exact decide_eq_true (hall t ((mem_sortByDate_iff transactions t).mp ht))
    simp [calculate_xirr, hcond1, hcond2]

/-- Instantiation of `calculate_xirr_sign_sentinels`: an all-nonnegative
list returns `undefined`; an all-negative list returns `-1`. -/
theorem calculate_xirr_sign_sentinels_witness :
    ((∀ t ∈ ([⟨0, 2⟩, ⟨10, 0⟩] : List CashFlow), 0 ≤ t.value)
      ∧ calculate_xirr (fun _ _ _ => 0) [⟨0, 2⟩, ⟨10, 0⟩] = XirrOutcome.undefined)
    ∧ ((∀ t ∈ ([⟨0, -3⟩] : List CashFlow), t.value ≤ 0)
      ∧ calculate_xirr (fun _ _ _ => 0) [⟨0, -3⟩] = XirrOutcome.fixedRate (-1)) :=
  ⟨⟨by decide, (calculate_xirr_sign_sentinels (fun _ _ _ => 0) _).1 (by decide)⟩,
   ⟨by decide, (calculate_xirr_sign_sentinels (fun _ _ _ => 0) _).2
      (by decide) (by decide)⟩⟩

/-- **C3.** On a cash-flow list containing both a strictly positive and a
strictly negative value, neither sentinel branch fires; the objective
`f(r) = Σ valueᵢ/(1+r)^(daysSinceFirstᵢ/365)` is evaluated at `r = -0.999`
and `r = 100`; opposite signs hand the bracket `[-0.999, 100]` to the
root-finder and its root is returned; agreeing signs (including an exactly
zero evaluation) return the `undefined` sentinel. -/
theorem calculate_xirr_mixed_sign_bracket (brenth : (ℝ → ℝ) → ℝ → ℝ → ℝ)
    (transactions : List CashFlow)
    (hpos : ∃ t ∈ transactions, 0 < t.value)
    (hneg : ∃ t ∈ transactions, t.value < 0) :
    (((xirrObjective (transaction_array transactions) (-0.999) > 0
        ∧ xirrObjective (transaction_array transactions) 100 < 0)
      ∨ (xirrObjective (transaction_array transactions) (-0.999) < 0
        ∧ xirrObjective (transaction_array transactions) 100 > 0)) →
      calculate_xirr brenth transactions
        = XirrOutcome.solved (brenth (xirrObjective (transaction_array transactions))
            (-0.999) 100))
    ∧ (¬ ((xirrObjective (transaction_array transactions) (-0.999) > 0
        ∧ xirrObjective (transaction_array transactions) 100 < 0)
      ∨ (xirrObjective (transaction_array transactions) (-0.999) < 0
        ∧ xirrObjective (transaction_array transactions) 100 > 0)) →
      calculate_xirr brenth transactions = XirrOutcome.undefined) := by
  obtain ⟨tp, htp, htpv⟩ := hpos
  obtain ⟨tn, htn, htnv⟩ := hneg
  have hcond1 : (List.insertionSort (fun a b : CashFlow => a.date ≤ b.date)
      transactions).all (fun t => decide (0 ≤ t.value)) = false := by
    cases hb : (List.insertionSort (fun a b : CashFlow => a.date ≤ b.date)
        transactions).all (fun t => decide (0 ≤ t.value)) with
    | false => rfl
    | true =>
      rw [List.all_eq_true] at hb
      exact absurd (of_decide_eq_true
        (hb tn ((mem_sortByDate_iff transactions tn).mpr htn)))
        (not_le.mpr htnv)
  have hcond2 : (List.insertionSort (fun a b : CashFlow => a.date ≤ b.date)
      transactions).all (fun t => decide (t.value ≤ 0)) = false := by
    cases hb : (List.insertionSort (fun a b : CashFlow => a.date ≤ b.date)
        transactions).all (fun t => decide (t.value ≤ 0)) with
    | false => rfl
    | true =>
      rw [List.all_eq_true] at hb
      exact absurd (of_decide_eq_true
        (hb tp ((mem_sortByDate_iff transactions tp).mpr htp)))
        (not_le.mpr htpv)
  constructor
  · intro hbr
    simp only [calculate_xirr, hcond1, hcond2]
    simp only [Bool.false_eq_true, if_false]
    rw [if_pos hbr]
  · intro hbr
    simp only [calculate_xirr, hcond1, hcond2]
    simp only [Bool.false_eq_true, if_false]
    rw [if_neg hbr]

/-- Instantiation of `calculate_xirr_mixed_sign_bracket` on a two-flow list
with one strictly positive and one strictly negative value. -/
theorem calculate_xirr_mixed_sign_bracket_witness :
    (∃ t ∈ ([⟨0, -1⟩, ⟨365, 2⟩] : List CashFlow), 0 < t.value)
    ∧ (∃ t ∈ ([⟨0, -1⟩, ⟨365, 2⟩] : List CashFlow), t.value < 0)
    ∧ (((xirrObjective (transaction_array [⟨0, -1⟩, ⟨365, 2⟩]) (-0.999) > 0
        ∧ xirrObjective (transaction_array [⟨0, -1⟩, ⟨365, 2⟩]) 100 < 0)
      ∨ (xirrObjective (transaction_array [⟨0, -1⟩, ⟨365, 2⟩]) (-0.999) < 0
        ∧ xirrObjective (transaction_array [⟨0, -1⟩, ⟨365, 2⟩]) 100 > 0)) →
      calculate_xirr (fun _ _ _ => 0) [⟨0, -1⟩, ⟨365, 2⟩]
        = XirrOutcome.solved ((fun _ _ _ => (0 : ℝ))
            (xirrObjective (transaction_array [⟨0, -1⟩, ⟨365, 2⟩])) (-0.999) 100)) :=
  ⟨by decide, by decide,
   (calculate_xirr_mixed_sign_bracket (fun _ _ _ => 0) [⟨0, -1⟩, ⟨365, 2⟩]
      (by decide) (by decide)).1⟩

end XirrsUtils

namespace TransactionUtils

/-- Splitting a mapped sum along a Boolean predicate. -/
theorem sum_map_filter_split {α : Type} (p : α → Bool) (val : α → ℚ)
    (l : List α) :
    ((l.filter p).map val).sum + ((l.filter fun x => ! p x).map val).sum
      = (l.map val).sum := by
  induction l with
  | nil => simp
  | cons x xs ih =>
    cases hx : p x with
    | true =>
      simp [List.filter_cons, hx]
      linarith [ih]
    | false =>
      simp [List.filter_cons, hx]
      linarith [ih]

/-- Filtering for a key value other than `d` is unaffected by first removing
the key-`d` records. -/
theorem filter_erase_other_key {α δ : Type} [DecidableEq δ] (key : α → δ)
    (d e : δ) (hne : e ≠ d) (l : List α) :
    ((l.filter fun x => ! decide (key x = d)).filter fun x => key x = e)
      = l.filter fun x => key x = e := by
  induction l with
  | nil => rfl
  | cons x xs ih =>
    by_cases h1 : key x = d
    · have hxe : ¬ key x = e := by
        rw [h1]
        exact fun hc => hne hc.symm
      rw [List.filter_cons, if_neg (by simp [h1]), ih, List.filter_cons,
        if_neg (by simp [hxe])]
    · rw [List.filter_cons, if_pos (by simp [h1])]
      by_cases h2 : key x = e
      · rw [List.filter_cons, if_pos (by simp [h2]), ih, List.filter_cons,
          if_pos (by simp [h2])]
      · rw [List.filter_cons, if_neg (by simp [h2]), ih, List.filter_cons,
          if_neg (by simp [h2])]

/-- Summing per-key group totals over a duplicate-free covering key list
recovers the total of the whole list. -/
theorem sum_filter_partition {α δ : Type} [DecidableEq δ] (key : α → δ)
    (val : α → ℚ) :
    ∀ (ds : List δ) (l : List α), ds.Nodup → (∀ x ∈ l, key x ∈ ds) →
      (ds.map fun d => ((l.filter fun x => key x = d).map val).sum).sum
        = (l.map val).sum := by
  intro ds
  induction ds with
  | nil =>
    intro l _ hcov
    have hl : l = [] := by
      cases l with
      | nil => rfl
      | cons x xs => exact absurd (hcov x (List.mem_cons_self x xs)) (List.not_mem_nil _)
    subst hl
    simp
  | cons d ds ih =>
    intro l hnd hcov
    have hdns : d ∉ ds := (List.nodup_cons.mp hnd).1
    have hnd' : ds.Nodup := (List.nodup_cons.mp hnd).2
    have hl2cov : ∀ x ∈ (l.filter fun x => ! decide (key x = d)), key x ∈ ds := by
      intro x hx
      rcases List.mem_filter.mp hx with ⟨hxl, hxd⟩
      have hkx : key x ≠ d := by
        intro hc
        simp [hc] at hxd
      rcases List.mem_cons.mp (hcov x hxl) with h | h
      · exact absurd h hkx
      · exact h
    have htail : (ds.map fun e => ((l.filter fun x => key x = e).map val).sum).sum
        = ((l.filter fun x => ! decide (key x = d)).map val).sum := by
      rw [← ih (l.filter fun x => ! decide (key x = d)) hnd' hl2cov]
      congr 1
      refine List.map_congr_left ?_
      intro e he
      rw [filter_erase_other_key key d e (fun hc => hdns (hc ▸ he)) l]
    simp only [List.map_cons, List.sum_cons, htail]
    exact sum_map_filter_split (fun x => decide (key x = d)) val l

/-- **C9.** For every transaction list (with well-formed, canonically
rendered `"%Y-%m-%d"` dates) and optional type filter,
`aggregate_transactions_by_date` returns at most one record per distinct
date (both as date strings and as parsed calendar dates), the output values
sum to the total of the filter-matching input values with a null value
counting as `0`, and the records are sorted ascending by the calendar order
of the *parsed* dates (the sort key is `strptime`, not the raw string). -/
theorem aggregate_by_date_properties (transactions : List (RawTxn DateStr))
    (tid : Option ℕ)
    (hvalid : ∀ t ∈ transactions, (parseDate t.date).isSome)
    (hcanon : ∀ t1 ∈ transactions, ∀ t2 ∈ transactions,
      parseDateD t1.date = parseDateD t2.date → t1.date = t2.date) :
    ((aggregate_transactions_by_date parseDateD transactions tid).map
        fun a => a.date).Nodup
    ∧ ((aggregate_transactions_by_date parseDateD transactions tid).map
        fun a => parseDateD a.date).Nodup
    ∧ ((aggregate_transactions_by_date parseDateD transactions tid).map
        fun a => a.value).sum
      = (((match tid with
          | some i => transactions.filter fun t => t.transactionTypeId = i
          | none => transactions) : List (RawTxn DateStr)).map
            fun t => t.value.getD 0).sum
    ∧ (aggregate_transactions_by_date parseDateD transactions tid).Pairwise
        fun a b => parseDateD a.date ≤ parseDateD b.date := by
  have _hv := hvalid
  set txns : List (RawTxn DateStr) := ((match tid with
    | some i => transactions.filter fun t => t.transactionTypeId = i
    | none => transactions) : List (RawTxn DateStr)) with htxns
  have htsub : ∀ t ∈ txns, t ∈ transactions := by
    intro t ht
    rw [htxns] at ht
    cases tid with
    | none => exact ht
    | some i => exact (List.mem_filter.mp ht).1
  set dates : List DateStr := (txns.map fun t => t.date).dedup with hdates
  set summed : List (AggTxn DateStr) := dates.map (fun d =>
    AggTxn.mk d (((txns.filter fun t => t.date = d).map fun t =>
      t.value.getD 0).sum)) with hsummed
  have hagg : aggregate_transactions_by_date parseDateD transactions tid
      = List.insertionSort (fun a b => parseDateD a.date ≤ parseDateD b.date)
          summed := rfl
  have hperm : List.Perm (List.insertionSort
      (fun a b => parseDateD a.date ≤ parseDateD b.date) summed) summed :=
    List.perm_insertionSort _ _
  have hmapdate : summed.map (fun a => a.date) = dates := by
    rw [hsummed, List.map_map]
    exact (List.map_congr_left fun d _ => rfl).trans (List.map_id dates)
  have hndates : dates.Nodup := by
    rw [hdates]
    exact List.nodup_dedup _
  have hdmem : ∀ d ∈ dates, ∃ t ∈ txns, t.date = d := by
    intro d hd
    rw [hdates] at hd
    rcases List.mem_map.mp (List.mem_dedup.mp hd) with ⟨t, ht, hteq⟩
    exact ⟨t, ht, hteq⟩
  refine ⟨?_, ?_, ?_, ?_⟩
  · rw [hagg]
    refine ((hperm.map fun a => a.date).nodup_iff).mpr ?_
    rw [hmapdate]
    exact hndates
  · rw [hagg]
    refine ((hperm.map fun a => parseDateD a.date).nodup_iff).mpr ?_
    have hmm : summed.map (fun a => parseDateD a.date)
        = dates.map (fun d => parseDateD d) := by
      rw [hsummed, List.map_map]
      rfl
    rw [hmm]
    refine List.Nodup.map_on ?_ hndates
    intro d1 hd1 d2 hd2 hpe
    rcases hdmem d1 hd1 with ⟨t1, ht1, ht1e⟩
    rcases hdmem d2 hd2 with ⟨t2, ht2, ht2e⟩
    have hde := hcanon t1 (htsub t1 ht1) t2 (htsub t2 ht2)
      (by rw [ht1e, ht2e]; exact hpe)
    rw [← ht1e, ← ht2e, hde]
  · rw [hagg]
    rw [(hperm.map fun a => a.value).sum_eq]
    have hmm : summed.map (fun a => a.value)
        = dates.map fun d => ((txns.filter fun t => t.date = d).map fun t =>
            t.value.getD 0).sum := by
      rw [hsummed, List.map_map]
      rfl
    rw [hmm]
    exact sum_filter_partition (fun t => t.date) (fun t => t.value.getD 0)
      dates txns hndates
      (fun x hx => by
        rw [hdates]
        exact List.mem_dedup.mpr (List.mem_map_of_mem _ hx))
  · rw [hagg]
    haveI : IsTotal (AggTxn DateStr)
        (fun a b => parseDateD a.date ≤ parseDateD b.date) :=
      ⟨fun a b => le_total _ _⟩
    haveI : IsTrans (AggTxn DateStr)
        (fun a b => parseDateD a.date ≤ parseDateD b.date) :=
      ⟨fun a b c hab hbc => le_trans hab hbc⟩
    exact List.sorted_insertionSort _ _

/-- Instantiation of `aggregate_by_date_properties` on a two-transaction
list whose lexical string order and calendar order of dates differ
(`"2020-9-30"` sorts lexically after `"2020-10-01"` but parses earlier);
the aggregated totals add up to the input total. -/
theorem aggregate_by_date_properties_witness :
    (∀ t ∈ ([⟨['2','0','2','0','-','1','0','-','0','1'], some 5, 1⟩,
        ⟨['2','0','2','0','-','9','-','3','0'], none, 2⟩] :
        List (RawTxn DateStr)), (parseDate t.date).isSome)
    ∧ ((aggregate_transactions_by_date parseDateD
          [⟨['2','0','2','0','-','1','0','-','0','1'], some 5, 1⟩,
           ⟨['2','0','2','0','-','9','-','3','0'], none, 2⟩] none).map
        fun a => a.value).sum
      = (([⟨['2','0','2','0','-','1','0','-','0','1'], some 5, 1⟩,
          ⟨['2','0','2','0','-','9','-','3','0'], none, 2⟩] :
          List (RawTxn DateStr)).map fun t => t.value.getD 0).sum :=
  ⟨by decide,
   (aggregate_by_date_properties
      [⟨['2','0','2','0','-','1','0','-','0','1'], some 5, 1⟩,
       ⟨['2','0','2','0','-','9','-','3','0'], none, 2⟩] none
      (by decide) (by decide)).2.2.1⟩

end TransactionUtils

namespace PmeUtils

open BisectHelpers TransactionUtils

/-- **C1 (code evaluation).** With `calculate_xirr=True`, both
`calculate_long_nickels_PME` and `calculate_mPME` call
`read_xirrs_timeseries(None, <balance series>, <transactions>)` — three
positional arguments against the two positional parameters of
`read_xirrs_timeseries(self, returns, transactions)` — so CPython raises
`TypeError` before any XIRR value is computed or written back, on every
input. -/
theorem xirr_write_back_raises (benchmark_returns : List BenchmarkReturn)
    (investment_returns : List BalanceItem)
    (investment_transactions : List (RawTxn ℤ)) (calculate_tvpi : Bool) :
    pyCallRaisesTypeError read_xirrs_timeseries_paramCount
        long_nickels_xirr_callArgCount = true
    ∧ pyCallRaisesTypeError read_xirrs_timeseries_paramCount
        mPME_xirr_callArgCount = true
    ∧ calculate_long_nickels_PME benchmark_returns investment_transactions
        true calculate_tvpi = Except.error PyError.typeError
    ∧ calculate_mPME benchmark_returns investment_returns
        investment_transactions true calculate_tvpi
        = Except.error PyError.typeError :=
  ⟨rfl, rfl, rfl, rfl⟩

/-- The truthiness guard `if prev_value:` of the Long-Nickels loop agrees
with plain multiplication: `0.0` is falsy and `0 * (1 + t) = 0`. -/
theorem lnCompound_eq (pv : Option ℚ) (t : ℚ) :
    (match pv with
      | some p => if p = 0 then 0 else p * (1 + t)
      | none => 0) = pv.getD 0 * (1 + t) := by
  cases pv with
  | none => simp
  | some p =>
    by_cases hp : p = 0
    · simp [hp]
    · simp [hp]

/-- Shifting `prevSeriesBalance` across a cons cell. -/
theorem prevSeriesBalance_cons (x : BalanceItem) (s : List BalanceItem)
    (p0 : ℚ) : ∀ i, prevSeriesBalance (x :: s) p0 (i + 1)
      = prevSeriesBalance s x.balance i := by
  intro i
  cases i with
  | zero => rfl
  | succ j => rfl

/-- Indexed characterisation of the Long-Nickels theoretical series, for an
arbitrary loop start state. -/
theorem ln_series_get? (contribs distribs : List (AggTxn ℤ)) (tv : Bool) :
    ∀ (brs : List BenchmarkReturn) (pv : Option ℚ) (cc cd : ℚ) (i : ℕ)
      (h : i < brs.length),
      (long_nickels_loop contribs distribs tv pv cc cd brs).series.get? i
        = some ⟨(brs.get ⟨i, h⟩).date,
            prevSeriesBalance
              (long_nickels_loop contribs distribs tv pv cc cd brs).series
              (pv.getD 0) i
              * (1 + (brs.get ⟨i, h⟩).timeWeightedReturn)
            + optValue (find_eq_by_key contribs (brs.get ⟨i, h⟩).date
                fun a => a.date)
            + optValue (find_eq_by_key distribs (brs.get ⟨i, h⟩).date
                fun a => a.date)⟩ := by
  intro brs
  induction brs with
  | nil => intro pv cc cd i h; exact absurd h (Nat.not_lt_zero i)
  | cons br rest ih =>
    intro pv cc cd i h
    cases i with
    | zero =>
      simp only [long_nickels_loop, List.get]
      rw [List.get?_cons_zero]
      rw [prevSeriesBalance, lnCompound_eq]
    | succ i' =>
      have h' : i' < rest.length := Nat.lt_of_succ_lt_succ h
      simp only [long_nickels_loop, List.get]
      rw [List.get?_cons_succ, prevSeriesBalance_cons]
      exact ih _ _ _ i' h'

/-- **C4.** For every date-ordered benchmark-return series, the
Long-Nickels loop records as the theoretical-investment balance at date `i`
the value `B_prev * (1 + timeWeightedReturn_i)` — the balance before the
first date being `0` — plus the net contribution and net distribution
aggregated on exactly that date, found via the keyed exact search
(`find_eq_by_key`); and the balance recorded for date `i` is the `B_prev`
used at date `i + 1` (`prevSeriesBalance` of the recorded series). -/
theorem long_nickels_theoretical_balance
    (benchmark_returns : List BenchmarkReturn)
    (investment_transactions : List (RawTxn ℤ)) (calculate_tvpi : Bool)
    (hordered : benchmark_returns.Pairwise fun a b => a.date ≤ b.date) :
    ∀ i (h : i < benchmark_returns.length),
      (long_nickels_loop (contributionsByDate investment_transactions)
          (distributionsByDate investment_transactions) calculate_tvpi
          none 0 0 benchmark_returns).series.get? i
        = some ⟨(benchmark_returns.get ⟨i, h⟩).date,
            prevSeriesBalance
              (long_nickels_loop (contributionsByDate investment_transactions)
                (distributionsByDate investment_transactions) calculate_tvpi
                none 0 0 benchmark_returns).series 0 i
              * (1 + (benchmark_returns.get ⟨i, h⟩).timeWeightedReturn)
            + optValue (find_eq_by_key
                (contributionsByDate investment_transactions)
                (benchmark_returns.get ⟨i, h⟩).date fun a => a.date)
            + optValue (find_eq_by_key
                (distributionsByDate investment_transactions)
                (benchmark_returns.get ⟨i, h⟩).date fun a => a.date)⟩ :=
  fun i h => ln_series_get? (contributionsByDate investment_transactions)
    (distributionsByDate investment_transactions) calculate_tvpi
    benchmark_returns none 0 0 i h

/-- Instantiation of `long_nickels_theoretical_balance` on a one-date
series with a single same-date contribution. -/
theorem long_nickels_theoretical_balance_witness :
    ([⟨0, 100, 0, 1, none, none, none, none, none⟩] :
        List BenchmarkReturn).Pairwise (fun a b => a.date ≤ b.date)
    ∧ (long_nickels_loop (contributionsByDate [⟨0, some (-50), 1⟩])
        (distributionsByDate [⟨0, some (-50), 1⟩]) false none 0 0
        [⟨0, 100, 0, 1, none, none, none, none, none⟩]).series.get? 0
      = some ⟨(([⟨0, 100, 0, 1, none, none, none, none, none⟩] :
            List BenchmarkReturn).get ⟨0, Nat.zero_lt_one⟩).date,
          prevSeriesBalance (long_nickels_loop
              (contributionsByDate [⟨0, some (-50), 1⟩])
              (distributionsByDate [⟨0, some (-50), 1⟩]) false none 0 0
              [⟨0, 100, 0, 1, none, none, none, none, none⟩]).series 0 0
            * (1 + (([⟨0, 100, 0, 1, none, none, none, none, none⟩] :
                List BenchmarkReturn).get ⟨0, Nat.zero_lt_one⟩).timeWeightedReturn)
          + optValue (find_eq_by_key (contributionsByDate [⟨0, some (-50), 1⟩])
              (([⟨0, 100, 0, 1, none, none, none, none, none⟩] :
                List BenchmarkReturn).get ⟨0, Nat.zero_lt_one⟩).date
              fun a => a.date)
          + optValue (find_eq_by_key (distributionsByDate [⟨0, some (-50), 1⟩])
              (([⟨0, 100, 0, 1, none, none, none, none, none⟩] :
                List BenchmarkReturn).get ⟨0, Nat.zero_lt_one⟩).date
              fun a => a.date)⟩ :=
  ⟨by decide,
   long_nickels_theoretical_balance
     [⟨0, 100, 0, 1, none, none, none, none, none⟩] [⟨0, some (-50), 1⟩]
     false (by decide) 0 Nat.zero_lt_one⟩

/-- The `is not None` guard of the Kaplan-Schoar compounding agrees with
plain multiplication from a `getD 0` start. -/
theorem ksCompound_eq (pv : Option ℚ) (t : ℚ) :
    (match pv with
      | some p => p * (1 + t)
      | none => 0) = pv.getD 0 * (1 + t) := by
  cases pv with
  | none => simp
  | some p => rfl

/-- Unfolding one step of the claim-side discounted-total recurrence. -/
theorem specDiscountedTotal_shift (p0 : ℚ) (v twr : ℕ → ℚ) :
    ∀ i, specDiscountedTotal p0 v twr (i + 1)
      = specDiscountedTotal (p0 * (1 + twr 0) + v 0)
          (fun j => v (j + 1)) (fun j => twr (j + 1)) i := by
  intro i
  induction i with
  | zero => rfl
  | succ j ihj =>
    show specDiscountedTotal p0 v twr (j + 1) * (1 + twr (j + 2)) + v (j + 2)
      = _
    rw [ihj]
    rfl

/-- Indexed characterisation of the Kaplan-Schoar multiple, for an
arbitrary loop start state. -/
theorem ks_multiple_get? (contribs distribs : List (AggTxn ℤ)) (tv : Bool) :
    ∀ (brs : List BenchmarkReturn) (cc : ℚ) (pdd pdc : Option ℚ) (i : ℕ),
      i < brs.length →
      ((kaplan_schoar_loop contribs distribs tv cc pdd pdc brs).outputs.get?
          i).map (fun b => b.kaplanSchoarMultiple)
        = some (some (
            if specDiscountedTotal (pdc.getD 0)
                (fun j => optValue (find_eq_by_key contribs
                  (brs.getD j default).date fun a => a.date))
                (fun j => (brs.getD j default).timeWeightedReturn) i ≠ 0 then
              specDiscountedTotal (pdd.getD 0)
                (fun j => optValue (find_eq_by_key distribs
                  (brs.getD j default).date fun a => a.date))
                (fun j => (brs.getD j default).timeWeightedReturn) i
              / (-1 * specDiscountedTotal (pdc.getD 0)
                (fun j => optValue (find_eq_by_key contribs
                  (brs.getD j default).date fun a => a.date))
                (fun j => (brs.getD j default).timeWeightedReturn) i)
            else 0)) := by
  intro brs
  induction brs with
  | nil => intro cc pdd pdc i h; exact absurd h (Nat.not_lt_zero i)
  | cons br rest ih =>
    intro cc pdd pdc i h
    cases i with
    | zero =>
      simp only [kaplan_schoar_loop]
      rw [List.get?_cons_zero]
      show some _ = _
      rw [specDiscountedTotal, specDiscountedTotal,
        ← ksCompound_eq pdc, ← ksCompound_eq pdd]
      split
      · rfl
      · split
        · rfl
        · rfl
    | succ i' =>
      have h' : i' < rest.length := Nat.lt_of_succ_lt_succ h
      simp only [kaplan_schoar_loop]
      rw [List.get?_cons_succ]
      rw [specDiscountedTotal_shift, specDiscountedTotal_shift,
        ← ksCompound_eq pdc, ← ksCompound_eq pdd]
      exact ih _ _ _ i' h'

/-- **C6.** For every date-ordered benchmark-return series,
`calculate_kaplan_schoar_PME` maintains two running totals — discounted
distributions and discounted contributions, each equal at a date to the
previous total compounded by `(1 + timeWeightedReturn)` plus that date's
same-date aggregated distribution (resp. contribution), starting from `0`
(`specDiscountedTotal 0`) — and sets every entry's `kaplanSchoarMultiple`
to `discountedDistributions / (-discountedContributions)`, with the value
`0` (not an error) whenever the discounted contributions total is exactly
zero. -/
theorem kaplan_schoar_multiple (benchmark_returns : List BenchmarkReturn)
    (investment_transactions : List (RawTxn ℤ)) (calculate_tvpi : Bool)
    (hordered : benchmark_returns.Pairwise fun a b => a.date ≤ b.date) :
    ∀ i, i < benchmark_returns.length →
      ((calculate_kaplan_schoar_PME benchmark_returns investment_transactions
          calculate_tvpi).get? i).map (fun b => b.kaplanSchoarMultiple)
        = some (some (
            if specDiscountedTotal 0
                (fun j => optValue (find_eq_by_key
                  (contributionsByDate investment_transactions)
                  (benchmark_returns.getD j default).date fun a => a.date))
                (fun j => (benchmark_returns.getD j default).timeWeightedReturn)
                i ≠ 0 then
              specDiscountedTotal 0
                (fun j => optValue (find_eq_by_key
                  (distributionsByDate investment_transactions)
                  (benchmark_returns.getD j default).date fun a => a.date))
                (fun j => (benchmark_returns.getD j default).timeWeightedReturn)
                i
              / (-1 * specDiscountedTotal 0
                (fun j => optValue (find_eq_by_key
                  (contributionsByDate investment_transactions)
                  (benchmark_returns.getD j default).date fun a => a.date))
                (fun j => (benchmark_returns.getD j default).timeWeightedReturn)
                i)
            else 0)) :=
  fun i h => ks_multiple_get? (contributionsByDate investment_transactions)
    (distributionsByDate investment_transactions) calculate_tvpi
    benchmark_returns 0 none none i h

/-- Instantiation of `kaplan_schoar_multiple` on a one-date series with a
same-date contribution of `-50` and distribution of `20`. -/
theorem kaplan_schoar_multiple_witness :
    ([⟨0, 100, 0, 1, none, none, none, none, none⟩] :
        List BenchmarkReturn).Pairwise (fun a b => a.date ≤ b.date)
    ∧ ((calculate_kaplan_schoar_PME
          [⟨0, 100, 0, 1, none, none, none, none, none⟩]
          [⟨0, some (-50), 1⟩, ⟨0, some 20, 2⟩] false).get? 0).map
        (fun b => b.kaplanSchoarMultiple)
      = some (some (
          if specDiscountedTotal 0
              (fun j => optValue (find_eq_by_key
                (contributionsByDate [⟨0, some (-50), 1⟩, ⟨0, some 20, 2⟩])
                (([⟨0, 100, 0, 1, none, none, none, none, none⟩] :
                  List BenchmarkReturn).getD j default).date fun a => a.date))
              (fun j => (([⟨0, 100, 0, 1, none, none, none, none, none⟩] :
                List BenchmarkReturn).getD j default).timeWeightedReturn)
              0 ≠ 0 then
            specDiscountedTotal 0
              (fun j => optValue (find_eq_by_key
                (distributionsByDate [⟨0, some (-50), 1⟩, ⟨0, some 20, 2⟩])
                (([⟨0, 100, 0, 1, none, none, none, none, none⟩] :
                  List BenchmarkReturn).getD j default).date fun a => a.date))
              (fun j => (([⟨0, 100, 0, 1, none, none, none, none, none⟩] :
                List BenchmarkReturn).getD j default).timeWeightedReturn)
              0
            / (-1 * specDiscountedTotal 0
              (fun j => optValue (find_eq_by_key
                (contributionsByDate [⟨0, some (-50), 1⟩, ⟨0, some 20, 2⟩])
                (([⟨0, 100, 0, 1, none, none, none, none, none⟩] :
                  List BenchmarkReturn).getD j default).date fun a => a.date))
              (fun j => (([⟨0, 100, 0, 1, none, none, none, none, none⟩] :
                List BenchmarkReturn).getD j default).timeWeightedReturn)
              0)
          else 0)) :=
  ⟨by decide,
   kaplan_schoar_multiple [⟨0, 100, 0, 1, none, none, none, none, none⟩]
     [⟨0, some (-50), 1⟩, ⟨0, some 20, 2⟩] false (by decide) 0
     Nat.zero_lt_one⟩

/-- Shifting `prevBenchmarkBalance` across a cons cell. -/
theorem prevBenchmarkBalance_cons (br : BenchmarkReturn)
    (rest : List BenchmarkReturn) (p0 : ℚ) :
    ∀ i, prevBenchmarkBalance (br :: rest) p0 (i + 1)
      = prevBenchmarkBalance rest br.balance i := by
  intro i
  cases i with
  | zero => rfl
  | succ j => rfl

/-- Indexed characterisation of the mPME theoretical balances and weighted
distributions, for an arbitrary loop start state. -/
theorem mPME_series_get? (contribs distribs : List (AggTxn ℤ))
    (sir : List BalanceItem) (tv : Bool) :
    ∀ (brs : List BenchmarkReturn) (pth pbm : Option ℚ) (cc cwd : ℚ)
      (i : ℕ) (h : i < brs.length),
      (mPME_loop contribs distribs sir tv pth pbm cc cwd
          brs).theoreticalBalances.get? i
        = some ⟨(brs.get ⟨i, h⟩).date,
            (1 - mPmeWeight distribs sir (brs.get ⟨i, h⟩).date)
            * (prevSeriesBalance
                (mPME_loop contribs distribs sir tv pth pbm cc cwd
                  brs).theoreticalBalances (pth.getD 0) i
              * ((brs.get ⟨i, h⟩).balance
                / prevBenchmarkBalance brs
                    (pbm.getD ((brs.getD 0 default).balance)) i)
              + optValue (find_eq_by_key contribs (brs.get ⟨i, h⟩).date
                  fun a => a.date))⟩
      ∧ (mPME_loop contribs distribs sir tv pth pbm cc cwd
          brs).weightedDistributions.get? i
        = some ⟨(brs.get ⟨i, h⟩).date,
            -1 * mPmeWeight distribs sir (brs.get ⟨i, h⟩).date
            * (prevSeriesBalance
                (mPME_loop contribs distribs sir tv pth pbm cc cwd
                  brs).theoreticalBalances (pth.getD 0) i
              * ((brs.get ⟨i, h⟩).balance
                / prevBenchmarkBalance brs
                    (pbm.getD ((brs.getD 0 default).balance)) i)
              + optValue (find_eq_by_key contribs (brs.get ⟨i, h⟩).date
                  fun a => a.date))⟩ := by
  intro brs
  induction brs with
  | nil => intro pth pbm cc cwd i h; exact absurd h (Nat.not_lt_zero i)
  | cons br rest ih =>
    intro pth pbm cc cwd i h
    cases i with
    | zero =>
      rcases hdtr : find_eq_by_key distribs br.date (fun a => a.date)
          with _ | dtr <;>
        rcases hmrr : find_le_by_key sir br.date (fun a => a.date)
            with _ | mrr <;>
          cases pth <;> cases pbm <;>
            refine ⟨?_, ?_⟩ <;>
              simp [mPME_loop, mPmeWeight, hdtr, hmrr, prevSeriesBalance,
                prevBenchmarkBalance, List.get]
    | succ i' =>
      have h' : i' < rest.length := Nat.lt_of_succ_lt_succ h
      simp only [mPME_loop, List.get]
      rw [List.get?_cons_succ, List.get?_cons_succ, prevSeriesBalance_cons,
        prevBenchmarkBalance_cons]
      exact ih _ _ _ _ i' h'

/-- **C5.** For every date-ordered benchmark-return series with positive
benchmark balances, the mPME loop computes at each date: the distribution
weight `mPmeWeight` (`magnitude / (magnitude + most recent
investment-return balance at or before the date)` when a same-date
distribution exists, `0` when there is none); the adjusted balance
`prevTheoretical * (currentBenchmarkBalance / prevBenchmarkBalance) +
same-date contribution (0 if none)`, with `prevTheoretical` starting at
`0` and `prevBenchmarkBalance` starting at the first date's own balance;
the date's theoretical balance `(1 - weight) * adjusted`; and the date's
weighted distribution `weight * adjusted` with the sign flipped. -/
theorem mPME_balances_and_weighted_distributions
    (benchmark_returns : List BenchmarkReturn)
    (investment_returns : List BalanceItem)
    (investment_transactions : List (RawTxn ℤ)) (calculate_tvpi : Bool)
    (hordered : benchmark_returns.Pairwise fun a b => a.date ≤ b.date)
    (hpos : ∀ br ∈ benchmark_returns, 0 < br.balance) :
    ∀ i (h : i < benchmark_returns.length),
      (mPME_loop (contributionsByDate investment_transactions)
          (distributionsByDate investment_transactions)
          (List.insertionSort (fun a b => a.date ≤ b.date)
            investment_returns) calculate_tvpi none none 0 0
          benchmark_returns).theoreticalBalances.get? i
        = some ⟨(benchmark_returns.get ⟨i, h⟩).date,
            (1 - mPmeWeight (distributionsByDate investment_transactions)
                (List.insertionSort (fun a b => a.date ≤ b.date)
                  investment_returns) (benchmark_returns.get ⟨i, h⟩).date)
            * (prevSeriesBalance
                (mPME_loop (contributionsByDate investment_transactions)
                  (distributionsByDate investment_transactions)
                  (List.insertionSort (fun a b => a.date ≤ b.date)
                    investment_returns) calculate_tvpi none none 0 0
                  benchmark_returns).theoreticalBalances 0 i
              * ((benchmark_returns.get ⟨i, h⟩).balance
                / prevBenchmarkBalance benchmark_returns
                    ((benchmark_returns.getD 0 default).balance) i)
              + optValue (find_eq_by_key
                  (contributionsByDate investment_transactions)
                  (benchmark_returns.get ⟨i, h⟩).date fun a => a.date))⟩
      ∧ (mPME_loop (contributionsByDate investment_transactions)
          (distributionsByDate investment_transactions)
          (List.insertionSort (fun a b => a.date ≤ b.date)
            investment_returns) calculate_tvpi none none 0 0
          benchmark_returns).weightedDistributions.get? i
        = some ⟨(benchmark_returns.get ⟨i, h⟩).date,
            -1 * mPmeWeight (distributionsByDate investment_transactions)
                (List.insertionSort (fun a b => a.date ≤ b.date)
                  investment_returns) (benchmark_returns.get ⟨i, h⟩).date
            * (prevSeriesBalance
                (mPME_loop (contributionsByDate investment_transactions)
                  (distributionsByDate investment_transactions)
                  (List.insertionSort (fun a b => a.date ≤ b.date)
                    investment_returns) calculate_tvpi none none 0 0
                  benchmark_returns).theoreticalBalances 0 i
              * ((benchmark_returns.get ⟨i, h⟩).balance
                / prevBenchmarkBalance benchmark_returns
                    ((benchmark_returns.getD 0 default).balance) i)
              + optValue (find_eq_by_key
                  (contributionsByDate investment_transactions)
                  (benchmark_returns.get ⟨i, h⟩).date fun a => a.date))⟩ :=
  fun i h => mPME_series_get? (contributionsByDate investment_transactions)
    (distributionsByDate investment_transactions)
    (List.insertionSort (fun a b => a.date ≤ b.date) investment_returns)
    calculate_tvpi benchmark_returns none none 0 0 i h

/-- Instantiation of `mPME_balances_and_weighted_distributions` on a
one-date series with a same-date contribution and distribution and one
investment return. -/
theorem mPME_balances_witness :
    ([⟨0, 100, 0, 1, none, none, none, none, none⟩] :
        List BenchmarkReturn).Pairwise (fun a b => a.date ≤ b.date)
    ∧ (∀ br ∈ ([⟨0, 100, 0, 1, none, none, none, none, none⟩] :
        List BenchmarkReturn), 0 < br.balance)
    ∧ ((mPME_loop (contributionsByDate [⟨0, some (-50), 1⟩, ⟨0, some 20, 2⟩])
          (distributionsByDate [⟨0, some (-50), 1⟩, ⟨0, some 20, 2⟩])
          (List.insertionSort (fun a b => a.date ≤ b.date)
            ([⟨0, 80⟩] : List BalanceItem)) false none none 0 0
          [⟨0, 100, 0, 1, none, none, none, none, none⟩]).theoreticalBalances.get?
          0).isSome := by
  refine ⟨by decide, by decide, ?_⟩
  rw [(mPME_balances_and_weighted_distributions
    [⟨0, 100, 0, 1, none, none, none, none, none⟩] [⟨0, 80⟩]
    [⟨0, some (-50), 1⟩, ⟨0, some 20, 2⟩] false (by decide) (by decide) 0
    Nat.zero_lt_one).1]
  rfl

/-- The Long-Nickels DPI/RVPI division sites never execute with a zero
denominator: the branch condition itself requires
`cumulative_contributions != 0`. -/
theorem ln_tvpiDivZero_false (contribs distribs : List (AggTxn ℤ))
    (tv : Bool) : ∀ (brs : List BenchmarkReturn) (pv : Option ℚ)
      (cc cd : ℚ),
      (long_nickels_loop contribs distribs tv pv cc cd brs).tvpiDivZero
        = false := by
  intro brs
  induction brs with
  | nil => intro pv cc cd; rfl
  | cons br rest ih =>
    intro pv cc cd
    simp only [long_nickels_loop, ih, Bool.or_false]
    exact decide_eq_false (by rintro ⟨⟨_, hne⟩, heq⟩; exact hne heq)

/-- The mPME DPI/RVPI division sites never execute with a zero
denominator. -/
theorem mpme_tvpiDivZero_false (contribs distribs : List (AggTxn ℤ))
    (sir : List BalanceItem) (tv : Bool) :
    ∀ (brs : List BenchmarkReturn) (pth pbm : Option ℚ) (cc cwd : ℚ),
      (mPME_loop contribs distribs sir tv pth pbm cc cwd brs).tvpiDivZero
        = false := by
  intro brs
  induction brs with
  | nil => intro pth pbm cc cwd; rfl
  | cons br rest ih =>
    intro pth pbm cc cwd
    simp only [mPME_loop, ih, Bool.or_false]
    exact decide_eq_false (by rintro ⟨⟨_, hne⟩, heq⟩; exact hne heq)

/-- The Kaplan-Schoar multiple division site never executes with a zero
denominator: the branch requires `tdc != 0` and divides by `-1 * tdc`. -/
theorem ks_multipleDivZero_false (contribs distribs : List (AggTxn ℤ))
    (tv : Bool) : ∀ (brs : List BenchmarkReturn) (cc : ℚ)
      (pdd pdc : Option ℚ),
      (kaplan_schoar_loop contribs distribs tv cc pdd pdc
        brs).multipleDivZero = false := by
  intro brs
  induction brs with
  | nil => intro cc pdd pdc; rfl
  | cons br rest ih =>
    intro cc pdd pdc
    simp only [kaplan_schoar_loop, ih, Bool.or_false]
    exact decide_eq_false (by
      rintro ⟨hne, heq⟩
      exact hne (by linarith))

/-- The Kaplan-Schoar DPI/RVPI division sites never execute with a zero
denominator. -/
theorem ks_tvpiDivZero_false (contribs distribs : List (AggTxn ℤ))
    (tv : Bool) : ∀ (brs : List BenchmarkReturn) (cc : ℚ)
      (pdd pdc : Option ℚ),
      (kaplan_schoar_loop contribs distribs tv cc pdd pdc brs).tvpiDivZero
        = false := by
  intro brs
  induction brs with
  | nil => intro cc pdd pdc; rfl
  | cons br rest ih =>
    intro cc pdd pdc
    simp only [kaplan_schoar_loop, ih, Bool.or_false]
    exact decide_eq_false (by rintro ⟨⟨_, hne⟩, heq⟩; exact hne heq)

/-- **C8 (counterexample).** The mPME distribution-weight division site
(`pme_utils.py` line 171) is guarded only against a *missing* same-date
distribution or investment return — not against a zero denominator.  With
a same-date aggregated distribution value of `0` (for instance two
offsetting distribution transactions on one date) and a most recent
investment-return balance of `0`, the division executes with denominator
`-0 + 0 = 0` (CPython raises `ZeroDivisionError`), refuting the claim that
every division site in the enumerated ratio computations is protected by a
zero-fallback branch. -/
theorem mPME_weight_division_by_zero_counterexample :
    (mPME_loop [] ([⟨0, 0⟩] : List (AggTxn ℤ))
      ([⟨0, 0⟩] : List BalanceItem) false none none 0 0
      [⟨0, 1, 0, 1, none, none, none, none, none⟩]).weightDivZero = true := by
  simp [mPME_loop, find_eq_by_key, find_le_by_key, bisect_left, bisect_right]

/-- **C8 (amended).** In the multiple/ratio computations of the three PME
algorithms, the KS-PME multiple division and every DPI/RVPI/TVPI division
are protected by explicit zero-fallback branches and are never executed
with a zero denominator, for every input; the mPME distribution-weight
division, however, is guarded only against missing operands (absent
same-date distribution or absent prior investment return), and does divide
by zero when the negated distribution value plus the looked-up balance is
zero. -/
theorem guarded_ratio_divisions (benchmark_returns : List BenchmarkReturn)
    (investment_returns : List BalanceItem)
    (investment_transactions : List (RawTxn ℤ)) (calculate_tvpi : Bool) :
    (long_nickels_loop (contributionsByDate investment_transactions)
        (distributionsByDate investment_transactions) calculate_tvpi
        none 0 0 benchmark_returns).tvpiDivZero = false
    ∧ (mPME_loop (contributionsByDate investment_transactions)
        (distributionsByDate investment_transactions)
        (List.insertionSort (fun a b => a.date ≤ b.date)
          investment_returns) calculate_tvpi none none 0 0
        benchmark_returns).tvpiDivZero = false
    ∧ (kaplan_schoar_loop (contributionsByDate investment_transactions)
        (distributionsByDate investment_transactions) calculate_tvpi 0
        none none benchmark_returns).multipleDivZero = false
    ∧ (kaplan_schoar_loop (contributionsByDate investment_transactions)
        (distributionsByDate investment_transactions) calculate_tvpi 0
        none none benchmark_returns).tvpiDivZero = false :=
  ⟨ln_tvpiDivZero_false _ _ _ benchmark_returns none 0 0,
   mpme_tvpiDivZero_false _ _ _ _ benchmark_returns none none 0 0,
   ks_multipleDivZero_false _ _ _ benchmark_returns 0 none none,
   ks_tvpiDivZero_false _ _ _ benchmark_returns 0 none none⟩

end PmeUtils

namespace BisectHelpers

/-- `bisect_right` never exceeds the list length. -/
theorem bisect_right_le_length {β : Type} [LinearOrder β] :
    ∀ (a : List β) (x : β), bisect_right a x ≤ a.length := by
  intro a
  induction a with
  | nil => intro x; exact Nat.le_refl 0
  | cons y ys ih =>
    intro x
    by_cases hy : y ≤ x
    · simp only [bisect_right, if_pos hy, List.length_cons]
      exact Nat.succ_le_succ (ih x)
    · simp only [bisect_right, if_neg hy, List.length_cons]
      exact Nat.zero_le _

/-- `find_le_by_key` returns the sentinel exactly when the rightmost
insertion point is zero. -/
theorem find_le_by_key_none_iff {α β : Type} [LinearOrder β] (key : α → β)
    (a : List α) (x : β) :
    find_le_by_key a x key = none ↔ bisect_right (a.map key) x = 0 := by
  constructor
  · intro h
    cases hb : bisect_right (a.map key) x with
    | zero => rfl
    | succ j =>
      simp only [find_le_by_key, hb] at h
      rw [if_neg (Nat.succ_ne_zero _)] at h
      rw [Nat.succ_sub_one] at h
      have hj : j < a.length := by
        have hle := bisect_right_le_length (a.map key) x
        rw [hb, List.length_map] at hle
        exact Nat.lt_of_succ_le hle
      rw [List.get?_eq_get hj] at h
      cases h
  · intro h
    simp [find_le_by_key, h]

/-- On a key-sorted list, a successful `find_le_by_key` returns a member
with key at most the query that is maximal among all such members. -/
theorem find_le_by_key_spec {α β : Type} [LinearOrder β] (key : α → β) :
    ∀ (a : List α), List.Sorted (fun p q => key p ≤ key q) a →
      ∀ (x : β) (r : α), find_le_by_key a x key = some r →
        r ∈ a ∧ key r ≤ x ∧ ∀ s ∈ a, key s ≤ x → key s ≤ key r := by
  intro a
  induction a with
  | nil =>
    intro _ x r hr
    simp [find_le_by_key, bisect_right] at hr
  | cons y ys ih =>
    intro hs x r hr
    by_cases hy : key y ≤ x
    · have hbr : bisect_right ((y :: ys).map key) x
          = bisect_right (ys.map key) x + 1 := by
        simp [bisect_right, hy]
      simp only [find_le_by_key, hbr] at hr
      rw [if_neg (Nat.succ_ne_zero _)] at hr
      rw [Nat.succ_sub_one] at hr
      cases hb : bisect_right (ys.map key) x with
      | zero =>
        rw [hb, List.get?_cons_zero] at hr
        cases hr
        refine ⟨List.mem_cons_self _ _, hy, ?_⟩
        intro s hsm hsx
        rcases List.mem_cons.mp hsm with rfl | hs'
        · exact le_refl _
        · exfalso
          cases ys with
          | nil => simp at hs'
          | cons z zs =>
            have hz : ¬ key z ≤ x := by
              intro hzx
              rw [List.map_cons] at hb
              simp [bisect_right, hzx] at hb
            have hzs : key z ≤ key s := by
              rcases List.mem_cons.mp hs' with rfl | hs2
              · exact le_refl _
              · exact (List.sorted_cons.mp (List.Sorted.of_cons hs)).1 s hs2
            exact hz (le_trans hzs hsx)
      | succ j =>
        rw [hb, List.get?_cons_succ] at hr
        have hys : find_le_by_key ys x key = some r := by
          simp only [find_le_by_key, hb]
          rw [if_neg (Nat.succ_ne_zero _)]
          rw [Nat.succ_sub_one]
          exact hr
        obtain ⟨hrm, hrx, hmax⟩ := ih (List.Sorted.of_cons hs) x r hys
        refine ⟨List.mem_cons_of_mem _ hrm, hrx, ?_⟩
        intro s hsm hsx
        rcases List.mem_cons.mp hsm with rfl | hs'
        · exact (List.sorted_cons.mp hs).1 r hrm
        · exact hmax s hs' hsx
    · have hbr : bisect_right (key y :: List.map key ys) x = 0 := by
        simp [bisect_right, hy]
      simp [find_le_by_key, hbr] at hr

/-- On a key-sorted list, a `find_le_by_key` sentinel means every member's
key is strictly above the query. -/
theorem find_le_by_key_none_spec {α β : Type} [LinearOrder β] (key : α → β) :
    ∀ (a : List α), List.Sorted (fun p q => key p ≤ key q) a →
      ∀ x, find_le_by_key a x key = none → ∀ s ∈ a, x < key s := by
  intro a
  cases a with
  | nil => intro _ x _ s hsm; simp at hsm
  | cons y ys =>
    intro hs x hr s hsm
    have h0 := (find_le_by_key_none_iff key (y :: ys) x).mp hr
    have hy : ¬ key y ≤ x := by
      intro hyx
      rw [List.map_cons] at h0
      simp [bisect_right, hyx] at h0
    rcases List.mem_cons.mp hsm with rfl | hs'
    · exact lt_of_not_le hy
    · exact lt_of_lt_of_le (lt_of_not_le hy)
        ((List.sorted_cons.mp hs).1 s hs')

/-- When `find_le_by_key` finds nothing, `find_gt_by_key` returns the head
of the (nonempty) list. -/
theorem find_gt_head_of_le_none {α β : Type} [LinearOrder β] (key : α → β)
    (a : List α) (x : β) (hne : a ≠ [])
    (h : find_le_by_key a x key = none) :
    ∃ y ys, a = y :: ys ∧ find_gt_by_key a x key = some y := by
  cases a with
  | nil => exact absurd rfl hne
  | cons y ys =>
    refine ⟨y, ys, rfl, ?_⟩
    have h0 := (find_le_by_key_none_iff key (y :: ys) x).mp h
    simp only [find_gt_by_key, h0]
    rfl

end BisectHelpers

namespace PmeUtils

open BisectHelpers TransactionUtils

/-- The index point built for a date carries that date. -/
theorem index_value_for_date (bvs : List BenchmarkValue) (d : ℤ) :
    (index_value_for bvs d).date = d := by
  rcases h1 : find_le_by_key bvs d (fun b => b.date) with _ | bv
  · rcases h2 : find_gt_by_key bvs d (fun b => b.date) with _ | bv2 <;>
      simp [index_value_for, h1, h2]
  · simp [index_value_for, h1]

/-- The TWR loop preserves the dates of its input points, in order. -/
theorem twr_loop_map_date : ∀ (l : List (AggTxn ℤ)) (pv : Option ℚ) (c : ℚ),
    (twr_loop pv c l).map (fun b => b.date) = l.map (fun a => a.date) := by
  intro l
  induction l with
  | nil => intro pv c; rfl
  | cons x rest ih =>
    intro pv c
    simp only [twr_loop, List.map_cons]
    rw [ih]

/-- Every record emitted by the TWR loop takes its date and balance from an
input index point. -/
theorem mem_twr_loop : ∀ (l : List (AggTxn ℤ)) (pv : Option ℚ) (c : ℚ)
    (b : BenchmarkReturn), b ∈ twr_loop pv c l →
      ∃ iv ∈ l, b.date = iv.date ∧ b.balance = iv.value := by
  intro l
  induction l with
  | nil => intro pv c b hb; simp [twr_loop] at hb
  | cons x rest ih =>
    intro pv c b hb
    simp only [twr_loop] at hb
    rcases List.mem_cons.mp hb with rfl | hb'
    · exact ⟨x, List.mem_cons_self _ _, rfl, rfl⟩
    · obtain ⟨iv, hiv, h1, h2⟩ := ih _ _ _ hb'
      exact ⟨iv, List.mem_cons_of_mem _ hiv, h1, h2⟩

/-- The first record of the TWR loop started from a `None` previous value:
return `0` and cumulative `c * (1 + 0)`. -/
theorem twr_loop_head_spec (x : AggTxn ℤ) (rest : List (AggTxn ℤ)) (c : ℚ) :
    ∀ e, (twr_loop none c (x :: rest)).get? 0 = some e →
      e.timeWeightedReturn = 0
      ∧ e.cumulativeTimeWeightedReturn = c * (1 + e.timeWeightedReturn) := by
  intro e he
  simp only [twr_loop, List.get?_cons_zero] at he
  cases he
  refine ⟨rfl, ?_⟩
  show c * (0 + 1) = c * (1 + 0)
  norm_num

/-- Consecutive records of the TWR loop: the later record's return is the
relative change of balances and its cumulative return compounds the
earlier record's. -/
theorem twr_loop_pair : ∀ (l : List (AggTxn ℤ)) (pv : Option ℚ) (c : ℚ)
    (i : ℕ) (e1 e2 : BenchmarkReturn),
    (twr_loop pv c l).get? i = some e1 →
    (twr_loop pv c l).get? (i + 1) = some e2 →
      e2.timeWeightedReturn = (e2.balance - e1.balance) / e1.balance
      ∧ e2.cumulativeTimeWeightedReturn
        = e1.cumulativeTimeWeightedReturn * (1 + e2.timeWeightedReturn) := by
  intro l
  induction l with
  | nil => intro pv c i e1 e2 h1 _; simp [twr_loop] at h1
  | cons x rest ih =>
    intro pv c i e1 e2 h1 h2
    cases i with
    | zero =>
      simp only [twr_loop, List.get?_cons_zero, List.get?_cons_succ] at h1 h2
      cases h1
      cases rest with
      | nil => simp [twr_loop] at h2
      | cons y rest2 =>
        simp only [twr_loop, List.get?_cons_zero] at h2
        cases h2
        constructor
        · by_cases hx : x.value = 0
          · simp [hx]
          · simp [hx]
        · ring
    | succ j =>
      simp only [twr_loop, List.get?_cons_succ] at h1 h2
      exact ih _ _ _ _ _ h1 h2

/-- **C7.** For every non-empty benchmark-value list,
`get_benchmark_returns` emits exactly one entry per date required by the
investment's returns or transactions, in strictly ascending date order;
each entry's balance is the value of the most recent benchmark entry at or
before its date or, when none precedes it, of the earliest benchmark entry
after it; the first entry's time-weighted return is `0` and each later
entry's is `(value_i - value_{i-1}) / value_{i-1}`; and the cumulative
time-weighted return is seeded at `1.0` and multiplied by
`(1 + timeWeightedReturn_i)` at every entry. -/
theorem benchmark_returns_build (benchmark_values : List BenchmarkValue)
    (returns_dates transaction_dates : List ℤ)
    (hne : benchmark_values ≠ []) :
    ∃ out,
      get_benchmark_returns benchmark_values returns_dates transaction_dates
        = Except.ok out
      ∧ (out.map fun b => b.date).Perm
          (get_unique_dates returns_dates transaction_dates)
      ∧ List.Sorted (· < ·) (out.map fun b => b.date)
      ∧ (∀ b ∈ out,
          (∃ bv ∈ benchmark_values, bv.date ≤ b.date ∧ b.balance = bv.value
            ∧ ∀ bv2 ∈ benchmark_values, bv2.date ≤ b.date →
                bv2.date ≤ bv.date)
          ∨ ((∀ bv ∈ benchmark_values, b.date < bv.date)
            ∧ ∃ bv ∈ benchmark_values, b.balance = bv.value
              ∧ ∀ bv2 ∈ benchmark_values, bv.date ≤ bv2.date))
      ∧ (∀ e, out.get? 0 = some e → e.timeWeightedReturn = 0
          ∧ e.cumulativeTimeWeightedReturn = 1 * (1 + e.timeWeightedReturn))
      ∧ (∀ i e1 e2, out.get? i = some e1 → out.get? (i + 1) = some e2 →
          e2.timeWeightedReturn = (e2.balance - e1.balance) / e1.balance
          ∧ e2.cumulativeTimeWeightedReturn
            = e1.cumulativeTimeWeightedReturn
              * (1 + e2.timeWeightedReturn)) := by
  set sbv := List.insertionSort (fun a b : BenchmarkValue => a.date ≤ b.date)
    benchmark_values with hsbv
  set dts := get_unique_dates returns_dates transaction_dates with hdts
  set ivs := dts.map (index_value_for sbv) with hivs
  set sivs := List.insertionSort (fun a b : AggTxn ℤ => a.date ≤ b.date) ivs
    with hsivs
  have hmapdates : ivs.map (fun a => a.date) = dts := by
    rw [hivs, List.map_map]
    exact (List.map_congr_left fun d _ => index_value_for_date sbv d).trans
      (List.map_id _)
  have hperm : (sivs.map fun a => a.date).Perm dts := by
    have h := (List.perm_insertionSort
      (fun a b : AggTxn ℤ => a.date ≤ b.date) ivs).map (fun a => a.date)
    rw [hmapdates] at h
    exact h
  refine ⟨twr_loop none 1 sivs, ?_, ?_, ?_, ?_, ?_, ?_⟩
  · unfold get_benchmark_returns
    rw [if_neg hne]
  · rw [twr_loop_map_date]
    exact hperm
  · rw [twr_loop_map_date]
    haveI : IsTotal (AggTxn ℤ) (fun a b => a.date ≤ b.date) :=
      ⟨fun a b => le_total _ _⟩
    haveI : IsTrans (AggTxn ℤ) (fun a b => a.date ≤ b.date) :=
      ⟨fun a b c hab hbc => le_trans hab hbc⟩
    have hsorted := List.sorted_insertionSort
      (fun a b : AggTxn ℤ => a.date ≤ b.date) ivs
    have hle : (sivs.map fun a => a.date).Pairwise (· ≤ ·) :=
      List.pairwise_map.mpr hsorted
    have hnd : (sivs.map fun a => a.date).Nodup := by
      refine (hperm.nodup_iff).mpr ?_
      rw [hdts]
      unfold get_unique_dates
      exact List.nodup_dedup _
    exact (hle.and hnd).imp fun hab => lt_of_le_of_ne hab.1 hab.2
  · intro b hb
    obtain ⟨iv, hiv, hbd, hbb⟩ := mem_twr_loop _ _ _ b hb
    have hiv2 : iv ∈ ivs := (List.perm_insertionSort _ _).mem_iff.mp hiv
    rw [hivs] at hiv2
    obtain ⟨d, _hd, hdiv⟩ := List.mem_map.mp hiv2
    haveI : IsTotal BenchmarkValue (fun a b => a.date ≤ b.date) :=
      ⟨fun a b => le_total _ _⟩
    haveI : IsTrans BenchmarkValue (fun a b => a.date ≤ b.date) :=
      ⟨fun a b c hab hbc => le_trans hab hbc⟩
    have hbvs_sorted : List.Sorted
        (fun p q : BenchmarkValue => p.date ≤ q.date) sbv := by
      rw [hsbv]
      exact List.sorted_insertionSort _ _
    have hmem_iff : ∀ z : BenchmarkValue, z ∈ sbv ↔ z ∈ benchmark_values :=
      fun z => (List.perm_insertionSort _ _).mem_iff
    have hbdate : b.date = d := by
      rw [hbd, ← hdiv, index_value_for_date]
    rcases hle : find_le_by_key sbv d (fun p => p.date) with _ | bv
    · right
      have hall := find_le_by_key_none_spec (fun p => p.date) sbv
        hbvs_sorted d hle
      have hsne : sbv ≠ [] := by
        intro hc
        apply hne
        have hp := List.perm_insertionSort
          (fun a b : BenchmarkValue => a.date ≤ b.date) benchmark_values
        rw [← hsbv, hc] at hp
        exact hp.symm.eq_nil
      obtain ⟨y, ys, hcons, hgt⟩ := find_gt_head_of_le_none
        (fun p => p.date) sbv d hsne hle
      constructor
      · intro bv2 hbv2
        rw [hbdate]
        exact hall bv2 ((hmem_iff bv2).mpr hbv2)
      · have hysbv : y ∈ sbv := by
          rw [hcons]
          exact List.mem_cons_self y ys
        refine ⟨y, (hmem_iff y).mp hysbv, ?_, ?_⟩
        · rw [hbb, ← hdiv]
          simp [index_value_for, hle, hgt]
        · intro bv2 hbv2
          have hbv2s : bv2 ∈ sbv := (hmem_iff bv2).mpr hbv2
          rw [hcons] at hbv2s hbvs_sorted
          rcases List.mem_cons.mp hbv2s with rfl | h2
          · exact le_refl _
          · exact (List.sorted_cons.mp hbvs_sorted).1 bv2 h2
    · left
      obtain ⟨hbm, hbx, hmax⟩ := find_le_by_key_spec (fun p => p.date) sbv
        hbvs_sorted d bv hle
      refine ⟨bv, (hmem_iff bv).mp hbm, ?_, ?_, ?_⟩
      · rw [hbdate]
        exact hbx
      · rw [hbb, ← hdiv]
        simp [index_value_for, hle]
      · intro bv2 hbv2 hbv2le
        rw [hbdate] at hbv2le
        exact hmax bv2 ((hmem_iff bv2).mpr hbv2) hbv2le
  · intro e he
    cases hs : sivs with
    | nil =>
      rw [hs] at he
      simp [twr_loop] at he
    | cons x rest =>
      rw [hs] at he
      exact twr_loop_head_spec x rest 1 e he
  · intro i e1 e2 h1 h2
    exact twr_loop_pair sivs none 1 i e1 e2 h1 h2

/-- Instantiation of `benchmark_returns_build` on a one-value benchmark and
one required date: the build succeeds and its dates are strictly
ascending. -/
theorem benchmark_returns_build_witness :
    ([⟨0, 100⟩] : List BenchmarkValue) ≠ []
    ∧ ∃ out, get_benchmark_returns [⟨0, 100⟩] [0] [] = Except.ok out
        ∧ List.Sorted (· < ·) (out.map fun b => b.date) :=
  ⟨by decide,
   (benchmark_returns_build [⟨0, 100⟩] [0] [] (by decide)).elim
     fun out h => ⟨out, h.1, h.2.2.1⟩⟩

end PmeUtils
